import Mathlib

/-!
Verification of the chunked file-cipher pipeline and the range-addressable
decrypt-and-stream path of the Secure-Video-Streaming-API repository.

The Go source processes files in fixed 64 KiB plaintext chunks
(`EncryptFile`/`DecryptFile` in the utils package) and serves decrypted
bodies with single-range HTTP semantics (`parseRange`/`StreamVideo` in
`internal/handlers/video.go`).  Bytes are modelled as `Nat` (with explicit
`< 256` bounds where a claim needs them), files as `List Nat`, and the
AES-GCM AEAD from Go's crypto library as an abstract structure `AEAD`
carrying its documented contract (fixed nonce size, constant ciphertext
expansion, `Open` inverting `Seal` and failing closed on modification).
-/

/-- The fixed plaintext chunk size used by both `EncryptFile` and
`DecryptFile` (`const chunkSize = 64 * 1024`). -/
def chunkSize : Nat := 65536

/-- Fuel-driven splitting of a byte list into consecutive chunks of at
most `sz` bytes; models the sequential `Read` loop over a file, where
every read before end-of-file fills the whole buffer. -/
def chunksGo (sz : Nat) : Nat → List Nat → List (List Nat)
  | 0, _ => []
  | _, [] => []
  | f + 1, l => l.take sz :: chunksGo sz f (l.drop sz)

/-- Split a byte list into consecutive chunks of at most `sz` bytes. -/
def chunksBy (sz : Nat) (p : List Nat) : List (List Nat) :=
  chunksGo sz p.length p

/-- The 64 KiB plaintext chunks read by the `EncryptFile` loop. -/
def chunks (p : List Nat) : List (List Nat) :=
  chunksBy chunkSize p

/-- Number of chunks produced when splitting `n` bytes into chunks of
`sz` bytes: the ceiling of `n / sz`. -/
def numChunks (sz n : Nat) : Nat := (n + sz - 1) / sz

/-- Arithmetic description of the chunk sizes of an `n`-byte input. -/
def chunkLens (sz n : Nat) : List Nat :=
  (List.range (numChunks sz n)).map (fun i => min sz (n - sz * i))

theorem chunksGo_fuel (sz : Nat) (hsz : 0 < sz) :
    ∀ (f f' : Nat) (p : List Nat), p.length ≤ f → p.length ≤ f' →
      chunksGo sz f p = chunksGo sz f' p := by
  intro f
  induction f with
  | zero =>
    intro f' p hp _
    have : p = [] := List.eq_nil_of_length_eq_zero (Nat.le_zero.mp hp)
    subst this
    cases f' <;> rfl
  | succ f ih =>
    intro f' p hp hp'
    cases p with
    | nil => cases f' <;> rfl
    | cons a l =>
      cases f' with
      | zero => simp at hp'
      | succ f' =>
        simp only [chunksGo]
        congr 1
        apply ih
        · have : ((a :: l).drop sz).length = (a :: l).length - sz := by
            simp [List.length_drop]
          omega
        · have : ((a :: l).drop sz).length = (a :: l).length - sz := by
            simp [List.length_drop]
          omega

theorem chunksBy_nil (sz : Nat) : chunksBy sz [] = [] := rfl

theorem chunksBy_cons (sz : Nat) (hsz : 0 < sz) (p : List Nat) (hp : p ≠ []) :
    chunksBy sz p = p.take sz :: chunksBy sz (p.drop sz) := by
  cases p with
  | nil => exact absurd rfl hp
  | cons a l =>
    show chunksGo sz (a :: l).length (a :: l) = _
    have hlen : (a :: l).length = l.length + 1 := rfl
    rw [hlen]
    simp only [chunksGo]
    congr 1
    apply chunksGo_fuel sz hsz
    · have : ((a :: l).drop sz).length = (a :: l).length - sz := by
        simp [List.length_drop]
      omega
    · exact Nat.le_refl _

/-- Strong-induction helper: every property closed under the
`chunksBy_cons` unfolding holds of `chunksBy`. -/
theorem chunksBy_induction (sz : Nat) (hsz : 0 < sz)
    (motive : List Nat → Prop)
    (hnil : motive [])
    (hcons : ∀ p, p ≠ [] → motive (p.drop sz) → motive p) :
    ∀ p, motive p := by
  have H : ∀ (n : Nat) (p : List Nat), p.length ≤ n → motive p := by
    intro n
    induction n with
    | zero =>
      intro p hp
      have : p = [] := List.eq_nil_of_length_eq_zero (Nat.le_zero.mp hp)
      subst this
      exact hnil
    | succ n ih =>
      intro p hp
      by_cases hp' : p = []
      · subst hp'; exact hnil
      · refine hcons p hp' (ih _ ?_)
        have h1 : (p.drop sz).length = p.length - sz := by
          simp [List.length_drop]
        have h2 : 1 ≤ p.length := by
          cases p with
          | nil => exact absurd rfl hp'
          | cons a l => simp
        omega
  exact fun p => H p.length p (Nat.le_refl _)

theorem join_chunksBy (sz : Nat) (hsz : 0 < sz) (p : List Nat) :
    (chunksBy sz p).flatten = p := by
  induction p using chunksBy_induction sz hsz with
  | hnil => rfl
  | hcons p hp ih =>
    rw [chunksBy_cons sz hsz p hp]
    simp [ih]

theorem mem_chunksBy_ne_nil (sz : Nat) (hsz : 0 < sz) (p : List Nat) :
    ∀ c ∈ chunksBy sz p, c ≠ [] := by
  induction p using chunksBy_induction sz hsz with
  | hnil => intro c hc; simp [chunksBy_nil] at hc
  | hcons p hp ih =>
    intro c hc
    rw [chunksBy_cons sz hsz p hp] at hc
    rcases List.mem_cons.mp hc with h | h
    · subst h
      cases p with
      | nil => exact absurd rfl hp
      | cons a l =>
        cases sz with
        | zero => omega
        | succ s => simp
    · exact ih c h

theorem mem_chunksBy_length_le (sz : Nat) (hsz : 0 < sz) (p : List Nat) :
    ∀ c ∈ chunksBy sz p, c.length ≤ sz := by
  induction p using chunksBy_induction sz hsz with
  | hnil => intro c hc; simp [chunksBy_nil] at hc
  | hcons p hp ih =>
    intro c hc
    rw [chunksBy_cons sz hsz p hp] at hc
    rcases List.mem_cons.mp hc with h | h
    · subst h; simp [List.length_take]
    · exact ih c h

theorem chunksBy_ne_nil (sz : Nat) (hsz : 0 < sz) (p : List Nat) (hp : p ≠ []) :
    chunksBy sz p ≠ [] := by
  rw [chunksBy_cons sz hsz p hp]
  simp

theorem mem_dropLast_chunksBy_length (sz : Nat) (hsz : 0 < sz) (p : List Nat) :
    ∀ c ∈ (chunksBy sz p).dropLast, c.length = sz := by
  induction p using chunksBy_induction sz hsz with
  | hnil => intro c hc; simp [chunksBy_nil] at hc
  | hcons p hp ih =>
    intro c hc
    rw [chunksBy_cons sz hsz p hp] at hc
    by_cases hrest : chunksBy sz (p.drop sz) = []
    · rw [hrest] at hc
      simp at hc
    · rw [List.dropLast_cons_of_ne_nil hrest] at hc
      rcases List.mem_cons.mp hc with h | h
      · subst h
        have hd : p.drop sz ≠ [] := by
          intro hnil2
          exact hrest (by rw [hnil2]; rfl)
        have : sz < p.length := by
          by_contra hle
          push_neg at hle
          exact hd (List.drop_eq_nil_of_le hle)
        simp [List.length_take]
        omega
      · exact ih c h

theorem chunkLens_zero (sz : Nat) (hsz : 0 < sz) : chunkLens sz 0 = [] := by
  unfold chunkLens numChunks
  have h : (0 + sz - 1) / sz = 0 := Nat.div_eq_of_lt (by omega)
  rw [h]
  rfl

theorem chunkLens_pos (sz n : Nat) (hsz : 0 < sz) (hn : 0 < n) :
    chunkLens sz n = min sz n :: chunkLens sz (n - sz) := by
  unfold chunkLens numChunks
  by_cases h : n ≤ sz
  · have h1 : (n + sz - 1) / sz = 1 := by
      apply Nat.div_eq_of_lt_le <;> omega
    have h2 : (n - sz + sz - 1) / sz = 0 := Nat.div_eq_of_lt (by omega)
    rw [h1, h2]
    simp [List.range_succ, min_eq_right h]
  · push_neg at h
    have key : (n + sz - 1) / sz = (n - sz + sz - 1) / sz + 1 := by
      have e1 : n + sz - 1 = n - 1 + sz := by omega
      have e2 : n - sz + sz - 1 = n - 1 := by omega
      rw [e1, e2, Nat.add_div_right _ hsz]
    have hf : ((fun i => min sz (n - sz * i)) ∘ Nat.succ) =
        fun i => min sz (n - sz - sz * i) := by
      funext i
      have hm : sz * Nat.succ i = sz * i + sz := Nat.mul_succ sz i
      simp only [Function.comp]
      congr 1
      omega
    rw [key, List.range_succ_eq_map, List.map_cons, List.map_map, hf]
    simp

theorem map_length_chunksBy (sz : Nat) (hsz : 0 < sz) (p : List Nat) :
    (chunksBy sz p).map List.length = chunkLens sz p.length := by
  induction p using chunksBy_induction sz hsz with
  | hnil => simp [chunksBy_nil, chunkLens_zero sz hsz]
  | hcons p hp ih =>
    have hlen : 0 < p.length := List.length_pos.mpr hp
    rw [chunksBy_cons sz hsz p hp, List.map_cons, ih,
      chunkLens_pos sz p.length hsz hlen]
    congr 1
    · simp [List.length_take, Nat.min_comm]
    · congr 1
      simp [List.length_drop]

theorem length_chunksBy (sz : Nat) (hsz : 0 < sz) (p : List Nat) :
    (chunksBy sz p).length = numChunks sz p.length := by
  have h := congrArg List.length (map_length_chunksBy sz hsz p)
  simpa [chunkLens] using h

theorem sum_map_length_chunksBy (sz : Nat) (hsz : 0 < sz) (p : List Nat) :
    ((chunksBy sz p).map List.length).sum = p.length := by
  have h := congrArg List.length (join_chunksBy sz hsz p)
  simpa [List.length_flatten] using h

theorem mem_of_mem_chunksBy (sz : Nat) (hsz : 0 < sz) (p : List Nat)
    (c : List Nat) (hc : c ∈ chunksBy sz p) : ∀ x ∈ c, x ∈ p := by
  intro x hx
  have : x ∈ (chunksBy sz p).flatten := List.mem_flatten.mpr ⟨c, hc, hx⟩
  rwa [join_chunksBy sz hsz p] at this

theorem chunkSize_pos : 0 < chunkSize := by norm_num [chunkSize]

/-- Error taxonomy of the codec and handlers (§7 of the design): invalid
path, invalid key length, I/O failure, and ciphertext
authentication failure. -/
inductive Err
  | invalidPath
  | invalidKey
  | ioError
  | authenticationError
deriving DecidableEq

/-- Result of a whole-file codec operation: the produced byte content, or
a typed failure. -/
inductive Res
  | ok (v : List Nat)
  | error (e : Err)
deriving DecidableEq

/-- Contract of the authenticated-encryption primitive used by the codec
(Go's `cipher.AEAD` obtained from `cipher.NewGCM(aes.NewCipher(key))`,
external library code): `Seal` expands a plaintext by a constant
`overhead` (the 16-byte GCM tag), `Open` succeeds exactly on outputs of
`Seal` under the same key and nonce, and any single-byte modification of
a sealed block is rejected. -/
structure AEAD where
  nonceSize : Nat
  overhead : Nat
  aeSeal : List Nat → List Nat → List Nat → List Nat
  aeOpen : List Nat → List Nat → List Nat → Option (List Nat)
  seal_length : ∀ k n p, (aeSeal k n p).length = p.length + overhead
  open_seal : ∀ k n c p, aeOpen k n c = some p ↔ aeSeal k n p = c
  tamper_single : ∀ k n p o b, (∀ x ∈ p, x < 256) → b < 256 →
    o < (aeSeal k n p).length → b ≠ (aeSeal k n p).getD o 0 →
    aeOpen k n ((aeSeal k n p).set o b) = none

/-- The byte count of each `inFile.Read` in `DecryptFile`'s loop:
`chunkSize + gcm.Overhead()`. -/
def readSize (A : AEAD) : Nat := chunkSize + A.overhead

theorem readSize_pos (A : AEAD) : 0 < readSize A :=
  Nat.lt_of_lt_of_le chunkSize_pos (Nat.le_add_right _ _)

/-- The arguments of the successive `gcm.Seal(nil, nonce, buf[:n], nil)`
calls made by `EncryptFile`'s loop: one call per 64 KiB chunk, each with
the same key and the same file-level nonce. -/
def sealCalls (key nonce p : List Nat) : List (List Nat × List Nat × List Nat) :=
  (chunks p).map (fun c => (key, nonce, c))

/-- The ciphertext blocks appended to the staged output by
`EncryptFile`'s loop. -/
def encBody (A : AEAD) (key nonce p : List Nat) : List (List Nat) :=
  (sealCalls key nonce p).map (fun t => A.aeSeal t.1 t.2.1 t.2.2)

theorem encBody_eq (A : AEAD) (key nonce p : List Nat) :
    encBody A key nonce p = (chunks p).map (A.aeSeal key nonce) := by
  simp [encBody, sealCalls, List.map_map, Function.comp]

/-- The full byte content `EncryptFile` writes to the staged output:
the nonce followed by the ciphertext blocks. -/
def encBytes (A : AEAD) (key nonce p : List Nat) : List Nat :=
  nonce ++ (encBody A key nonce p).flatten

/-- Content-level model of `EncryptFile`: validate the key length, then
produce the encrypted byte content (nonce, then one sealed block per
64 KiB plaintext chunk, no zero-length trailing block because the loop
breaks on `n == 0`). -/
def EncryptFile (A : AEAD) (key nonce p : List Nat) : Res :=
  if key.length ≠ 32 then .error .invalidKey
  else .ok (encBytes A key nonce p)

/-- `DecryptFile`'s loop: `gcm.Open` each ciphertext block in order,
failing the whole operation on the first authentication failure. -/
def openAll (A : AEAD) (key nonce : List Nat) : List (List Nat) → Res
  | [] => .ok []
  | b :: bs =>
    match A.aeOpen key nonce b with
    | none => .error .authenticationError
    | some pt =>
      match openAll A key nonce bs with
      | .ok rest => .ok (pt ++ rest)
      | .error e => .error e

/-- Content-level model of `DecryptFile`: validate the key length, read
the nonce prefix (`io.ReadFull` fails if the file is shorter than the
nonce), then read the remainder in blocks of `chunkSize + overhead`
bytes and `gcm.Open` each. -/
def DecryptFile (A : AEAD) (key file : List Nat) : Res :=
  if key.length ≠ 32 then .error .invalidKey
  else if file.length < A.nonceSize then .error .ioError
  else openAll A key (file.take A.nonceSize)
    (chunksBy (readSize A) (file.drop A.nonceSize))

theorem chunksBy_flatten_of_shape (sz : Nat) (hsz : 0 < sz) :
    ∀ bs : List (List Nat), (∀ b ∈ bs, b ≠ []) → (∀ b ∈ bs, b.length ≤ sz) →
      (∀ b ∈ bs.dropLast, b.length = sz) →
      chunksBy sz bs.flatten = bs := by
  intro bs
  induction bs with
  | nil => intro _ _ _; rfl
  | cons b bs ih =>
    intro h1 h2 h3
    have hb : b ≠ [] := h1 b (List.mem_cons_self b bs)
    cases bs with
    | nil =>
      have hble : b.length ≤ sz := h2 b (List.mem_cons_self b [])
      have hfl : ([b] : List (List Nat)).flatten = b := by simp
      rw [hfl, chunksBy_cons sz hsz b hb, List.take_of_length_le hble,
        List.drop_eq_nil_of_le hble, chunksBy_nil]
    | cons b' bs' =>
      have hbfull : b.length = sz := by
        apply h3
        rw [List.dropLast_cons₂]
        exact List.mem_cons_self b _
      have hflat : (b :: b' :: bs').flatten = b ++ (b' :: bs').flatten := rfl
      have hne : (b :: b' :: bs').flatten ≠ [] := by
        rw [hflat]
        intro hcontra
        exact hb (List.append_eq_nil.mp hcontra).1
      rw [hflat, chunksBy_cons sz hsz _ (by rw [← hflat]; exact hne)]
      rw [List.take_left' hbfull, List.drop_left' hbfull]
      congr 1
      apply ih
      · intro x hx; exact h1 x (List.mem_cons_of_mem b hx)
      · intro x hx; exact h2 x (List.mem_cons_of_mem b hx)
      · intro x hx
        apply h3
        rw [List.dropLast_cons₂]
        exact List.mem_cons_of_mem b hx

theorem openAll_map_seal (A : AEAD) (key nonce : List Nat) :
    ∀ cs : List (List Nat),
      openAll A key nonce (cs.map (A.aeSeal key nonce)) = .ok cs.flatten := by
  intro cs
  induction cs with
  | nil => rfl
  | cons c cs ih =>
    have hopen : A.aeOpen key nonce (A.aeSeal key nonce c) = some c :=
      (A.open_seal key nonce (A.aeSeal key nonce c) c).mpr rfl
    simp only [List.map_cons, openAll, hopen, ih, List.flatten_cons]

/-- Shape facts about the ciphertext blocks `EncryptFile` emits: every
block is nonempty, every block fits in one decrypt-side read, and every
block except possibly the last fills the decrypt-side read exactly. -/
theorem encBody_shape (A : AEAD) (key nonce p : List Nat) :
    (∀ b ∈ encBody A key nonce p, b ≠ []) ∧
    (∀ b ∈ encBody A key nonce p, b.length ≤ readSize A) ∧
    (∀ b ∈ (encBody A key nonce p).dropLast, b.length = readSize A) := by
  rw [encBody_eq]
  refine ⟨?_, ?_, ?_⟩
  · intro b hb
    rcases List.mem_map.mp hb with ⟨c, hc, rfl⟩
    have hc1 : c ≠ [] := mem_chunksBy_ne_nil chunkSize chunkSize_pos p c hc
    have hc2 : 0 < c.length := List.length_pos.mpr hc1
    have := A.seal_length key nonce c
    intro hnil
    rw [hnil] at this
    simp at this
    omega
  · intro b hb
    rcases List.mem_map.mp hb with ⟨c, hc, rfl⟩
    have hc2 : c.length ≤ chunkSize :=
      mem_chunksBy_length_le chunkSize chunkSize_pos p c hc
    rw [A.seal_length key nonce c, readSize]
    omega
  · intro b hb
    rw [← List.map_dropLast] at hb
    rcases List.mem_map.mp hb with ⟨c, hc, rfl⟩
    have hc2 : c.length = chunkSize :=
      mem_dropLast_chunksBy_length chunkSize chunkSize_pos p c hc
    rw [A.seal_length key nonce c, readSize, hc2]

theorem length_encBytes (A : AEAD) (key nonce p : List Nat) :
    (encBytes A key nonce p).length =
      nonce.length + p.length + A.overhead * numChunks chunkSize p.length := by
  rw [encBytes, List.length_append, List.length_flatten, encBody_eq,
    List.map_map]
  have hmap : (List.length ∘ A.aeSeal key nonce) =
      fun c : List Nat => c.length + A.overhead := by
    funext c
    exact A.seal_length key nonce c
  rw [hmap]
  have hsum : ((chunks p).map fun c : List Nat => c.length + A.overhead).sum
      = ((chunks p).map List.length).sum + A.overhead * (chunks p).length := by
    induction chunks p with
    | nil => simp
    | cons c cs ih =>
      simp only [List.map_cons, List.sum_cons, ih, List.length_cons]
      ring
  rw [hsum]
  simp only [chunks]
  rw [sum_map_length_chunksBy chunkSize chunkSize_pos p,
    length_chunksBy chunkSize chunkSize_pos p]
  ring

/-- Round trip at the level of byte content: decrypting what
`EncryptFile` wrote, with the same key, recovers the plaintext. -/
theorem decrypt_encBytes (A : AEAD) (key nonce p : List Nat)
    (hk : key.length = 32) (hn : nonce.length = A.nonceSize) :
    DecryptFile A key (encBytes A key nonce p) = .ok p := by
  unfold DecryptFile
  rw [if_neg (by omega)]
  have hlen : (encBytes A key nonce p).length =
      nonce.length + (encBody A key nonce p).flatten.length := by
    simp [encBytes]
  rw [if_neg (by rw [hlen, hn]; omega)]
  have htake : (encBytes A key nonce p).take A.nonceSize = nonce := by
    rw [encBytes, ← hn, List.take_left]
  have hdrop : (encBytes A key nonce p).drop A.nonceSize =
      (encBody A key nonce p).flatten := by
    rw [encBytes, ← hn, List.drop_left]
  rw [htake, hdrop]
  obtain ⟨h1, h2, h3⟩ := encBody_shape A key nonce p
  rw [chunksBy_flatten_of_shape (readSize A) (readSize_pos A) _ h1 h2 h3,
    encBody_eq, openAll_map_seal A key nonce (chunks p)]
  simp only [chunks]
  rw [join_chunksBy chunkSize chunkSize_pos p]

theorem sum_set (p : List Nat) : ∀ (o b : Nat), o < p.length →
    (p.set o b).sum + p.getD o 0 = p.sum + b := by
  induction p with
  | nil => intro o b h; simp at h
  | cons a l ih =>
    intro o b h
    cases o with
    | zero => simp [List.set]; omega
    | succ o =>
      have h' : o < l.length := by simpa using h
      have := ih o b h'
      simp only [List.set, List.sum_cons, List.getD_cons_succ]
      omega

theorem set_ne_self (l : List Nat) (j b : Nat) (hj : j < l.length)
    (hb : b ≠ l.getD j 0) : l.set j b ≠ l := by
  intro h
  apply hb
  have h2 := congrArg (fun t : List Nat => t.getD j 0) h
  simp only at h2
  rw [List.getD_eq_getElem _ _ (by simpa using hj)] at h2
  rw [List.getElem_set_self] at h2
  exact h2

/-- Authentication tag of the model cipher: 16 bytes whose first byte is
a checksum of the data and whose second byte mixes key and nonce.  This
is only a mathematical stand-in realizing the `AEAD` contract so that
the theorems can be instantiated; it is not the real GCM tag. -/
def tagOf (key nonce p : List Nat) : List Nat :=
  p.sum % 256 :: (key.sum + nonce.sum) % 256 :: List.replicate 14 0

theorem tagOf_length (key nonce p : List Nat) :
    (tagOf key nonce p).length = 16 := by
  simp [tagOf]

/-- Model `Seal`: data followed by the 16-byte tag. -/
def mSeal (key nonce p : List Nat) : List Nat := p ++ tagOf key nonce p

/-- Model `Open`: check the length, recompute the seal of the data part
and compare; fail closed otherwise. -/
def mOpen (key nonce c : List Nat) : Option (List Nat) :=
  if 16 ≤ c.length then
    if c = mSeal key nonce (c.take (c.length - 16)) then
      some (c.take (c.length - 16))
    else none
  else none

theorem mSeal_length (key nonce p : List Nat) :
    (mSeal key nonce p).length = p.length + 16 := by
  simp [mSeal, tagOf]

theorem mOpen_mSeal (k n c p : List Nat) :
    mOpen k n c = some p ↔ mSeal k n p = c := by
  constructor
  · intro h
    unfold mOpen at h
    by_cases h1 : 16 ≤ c.length
    · rw [if_pos h1] at h
      by_cases h2 : c = mSeal k n (c.take (c.length - 16))
      · rw [if_pos h2] at h
        have := Option.some.inj h
        rw [← this]
        exact h2.symm
      · rw [if_neg h2] at h
        exact absurd h (by simp)
    · rw [if_neg h1] at h
      exact absurd h (by simp)
  · rintro rfl
    unfold mOpen
    have hlen : (mSeal k n p).length = p.length + 16 := mSeal_length k n p
    rw [if_pos (by omega)]
    have htake : (mSeal k n p).take ((mSeal k n p).length - 16) = p := by
      rw [hlen, Nat.add_sub_cancel]
      exact List.take_left' rfl
    rw [htake, if_pos rfl]

theorem mOpen_set_ne (k n p : List Nat) (o b : Nat)
    (hp : ∀ x ∈ p, x < 256) (hb : b < 256)
    (ho : o < (mSeal k n p).length) (hne : b ≠ (mSeal k n p).getD o 0) :
    mOpen k n ((mSeal k n p).set o b) = none := by
  have hlen : (mSeal k n p).length = p.length + 16 := mSeal_length k n p
  have hlen' : ((mSeal k n p).set o b).length = p.length + 16 := by
    rw [List.length_set, hlen]
  unfold mOpen
  rw [if_pos (by omega)]
  have hL : ((mSeal k n p).set o b).length - 16 = p.length := by omega
  by_cases hcase : o < p.length
  · have hset : (mSeal k n p).set o b = p.set o b ++ tagOf k n p := by
      unfold mSeal
      exact List.set_append_left o b hcase
    have htake : ((mSeal k n p).set o b).take (((mSeal k n p).set o b).length - 16)
        = p.set o b := by
      rw [hL, hset]
      exact List.take_left' (by simp)
    rw [htake, if_neg]
    intro heq
    rw [hset] at heq
    unfold mSeal at heq
    have htag : tagOf k n p = tagOf k n (p.set o b) := by
      have hlen2 : (p.set o b).length = (p.set o b).length := rfl
      exact List.append_cancel_left heq
    have hhead : p.sum % 256 = (p.set o b).sum % 256 := by
      simp only [tagOf, List.cons.injEq] at htag
      exact htag.1
    have ha : p.getD o 0 < 256 := by
      apply hp
      rw [List.getD_eq_getElem _ _ hcase]
      exact List.getElem_mem hcase
    have hsum := sum_set p o b hcase
    have hne' : b ≠ p.getD o 0 := by
      have hq : (mSeal k n p).getD o 0 = p.getD o 0 :=
        List.getD_append _ _ _ _ hcase
      rwa [hq] at hne
    omega
  · push_neg at hcase
    have hset : (mSeal k n p).set o b = p ++ (tagOf k n p).set (o - p.length) b := by
      unfold mSeal
      exact List.set_append_right o b hcase
    have htake : ((mSeal k n p).set o b).take (((mSeal k n p).set o b).length - 16)
        = p := by
      rw [hL, hset]
      exact List.take_left' rfl
    rw [htake, if_neg]
    intro heq
    rw [hset] at heq
    unfold mSeal at heq
    have htag : (tagOf k n p).set (o - p.length) b = tagOf k n p :=
      List.append_cancel_left heq
    have hj : o - p.length < (tagOf k n p).length := by
      rw [tagOf_length]
      omega
    have hne' : b ≠ (tagOf k n p).getD (o - p.length) 0 := by
      have hq : (mSeal k n p).getD o 0 = (tagOf k n p).getD (o - p.length) 0 :=
        List.getD_append_right _ _ _ _ hcase
      rwa [hq] at hne
    exact set_ne_self _ _ _ hj hne' htag

/-- A concrete instance of the `AEAD` contract, used to instantiate the
parameterized theorems at executable inputs.  Its nonce size (12) and
overhead (16) are those of AES-GCM. -/
def gcmModel : AEAD where
  nonceSize := 12
  overhead := 16
  aeSeal := mSeal
  aeOpen := mOpen
  seal_length := mSeal_length
  open_seal := mOpen_mSeal
  tamper_single := mOpen_set_ne

theorem flatten_set_decomp (bs : List (List Nat)) :
    ∀ i : Nat, i < bs.flatten.length →
    ∃ pre blk post o, bs = pre ++ blk :: post ∧ o < blk.length ∧
      (∀ x, bs.flatten.set i x = (pre ++ blk.set o x :: post).flatten) ∧
      bs.flatten.getD i 0 = blk.getD o 0 := by
  induction bs with
  | nil => intro i hi; simp at hi
  | cons b bs ih =>
    intro i hi
    rw [List.flatten_cons, List.length_append] at hi
    by_cases hc : i < b.length
    · refine ⟨[], b, bs, i, rfl, hc, ?_, ?_⟩
      · intro x
        rw [List.flatten_cons, List.set_append_left i x hc]
        rfl
      · rw [List.flatten_cons]
        exact List.getD_append _ _ _ _ hc
    · push_neg at hc
      have hi' : i - b.length < bs.flatten.length := by omega
      obtain ⟨pre, blk, post, o, h1, h2, h3, h4⟩ := ih (i - b.length) hi'
      refine ⟨b :: pre, blk, post, o, by rw [h1]; rfl, h2, ?_, ?_⟩
      · intro x
        rw [List.flatten_cons, List.set_append_right i x hc, h3 x]
        rfl
      · rw [List.flatten_cons, List.getD_append_right _ _ _ _ hc, h4]

theorem openAll_first_fail (A : AEAD) (k n : List Nat) :
    ∀ (pre : List (List Nat)) (bad : List Nat) (post : List (List Nat)),
      (∀ x ∈ pre, ∃ c, x = A.aeSeal k n c) →
      A.aeOpen k n bad = none →
      openAll A k n (pre ++ bad :: post) = .error .authenticationError := by
  intro pre
  induction pre with
  | nil =>
    intro bad post _ hbad
    simp [openAll, hbad]
  | cons x pre ih =>
    intro bad post hpre hbad
    obtain ⟨c, rfl⟩ := hpre _ (List.mem_cons_self x pre)
    have hopen : A.aeOpen k n (A.aeSeal k n c) = some c :=
      (A.open_seal k n _ c).mpr rfl
    have hrec := ih bad post (fun y hy => hpre y (List.mem_cons_of_mem _ hy)) hbad
    simp only [List.cons_append, openAll, hopen]
    rw [List.append_eq, hrec]

/-- The three shape facts used to re-chunk a ciphertext region depend
only on the lengths of the blocks. -/
theorem shape_of_map_length_eq (sz : Nat) (bs bs' : List (List Nat))
    (h : bs'.map List.length = bs.map List.length)
    (h1 : ∀ x ∈ bs, x ≠ []) (h2 : ∀ x ∈ bs, x.length ≤ sz)
    (h3 : ∀ x ∈ bs.dropLast, x.length = sz) :
    (∀ x ∈ bs', x ≠ []) ∧ (∀ x ∈ bs', x.length ≤ sz) ∧
      (∀ x ∈ bs'.dropLast, x.length = sz) := by
  have hmem : ∀ x ∈ bs', ∃ y ∈ bs, y.length = x.length := by
    intro x hx
    have : x.length ∈ bs'.map List.length := List.mem_map.mpr ⟨x, hx, rfl⟩
    rw [h] at this
    rcases List.mem_map.mp this with ⟨y, hy, hyl⟩
    exact ⟨y, hy, hyl⟩
  refine ⟨?_, ?_, ?_⟩
  · intro x hx
    obtain ⟨y, hy, hyl⟩ := hmem x hx
    have : y ≠ [] := h1 y hy
    intro hxnil
    rw [hxnil] at hyl
    simp at hyl
    exact this hyl
  · intro x hx
    obtain ⟨y, hy, hyl⟩ := hmem x hx
    rw [← hyl]
    exact h2 y hy
  · intro x hx
    have hmape : bs'.dropLast.map List.length = bs.dropLast.map List.length := by
      rw [List.map_dropLast, List.map_dropLast, h]
    have : x.length ∈ bs'.dropLast.map List.length := List.mem_map.mpr ⟨x, hx, rfl⟩
    rw [hmape] at this
    rcases List.mem_map.mp this with ⟨y, hy, hyl⟩
    rw [← hyl]
    exact h3 y hy

/-- Tamper propagation: flipping any single byte strictly after the
nonce prefix of an encrypted file makes `DecryptFile` fail with the
authentication error. -/
theorem decrypt_tampered (A : AEAD) (key nonce p : List Nat) (i b : Nat)
    (hk : key.length = 32) (hn : nonce.length = A.nonceSize)
    (hp : ∀ x ∈ p, x < 256) (hb : b < 256)
    (hi1 : A.nonceSize ≤ i) (hi2 : i < (encBytes A key nonce p).length)
    (hne : b ≠ (encBytes A key nonce p).getD i 0) :
    DecryptFile A key ((encBytes A key nonce p).set i b) =
      .error .authenticationError := by
  have hnle : nonce.length ≤ i := by rw [hn]; exact hi1
  have hlenB : (encBytes A key nonce p).length =
      nonce.length + (encBody A key nonce p).flatten.length := by
    simp [encBytes]
  have hi' : i - nonce.length < (encBody A key nonce p).flatten.length := by
    omega
  obtain ⟨pre, blk, post, o, hdec, ho, hset, hgetD⟩ :=
    flatten_set_decomp (encBody A key nonce p) (i - nonce.length) hi'
  have hblk : blk ∈ encBody A key nonce p := by
    rw [hdec]
    exact List.mem_append_right pre (List.mem_cons_self blk post)
  have hblk' := hblk
  rw [encBody_eq] at hblk'
  rcases List.mem_map.mp hblk' with ⟨c, hc, hcs⟩
  have hfile : (encBytes A key nonce p).set i b =
      nonce ++ (encBody A key nonce p).flatten.set (i - nonce.length) b := by
    unfold encBytes
    exact List.set_append_right i b hnle
  rw [hfile, hset b]
  unfold DecryptFile
  rw [if_neg (by omega)]
  have hlenM : (pre ++ blk.set o b :: post).flatten.length =
      (encBody A key nonce p).flatten.length := by
    have := congrArg List.length (hset b)
    rw [List.length_set] at this
    exact this.symm
  rw [if_neg (by rw [List.length_append, hlenM, hn]; omega)]
  rw [List.take_left' hn, List.drop_left' hn]
  have hml : (pre ++ blk.set o b :: post).map List.length =
      (encBody A key nonce p).map List.length := by
    rw [hdec]
    simp [List.length_set]
  obtain ⟨s1, s2, s3⟩ := encBody_shape A key nonce p
  obtain ⟨t1, t2, t3⟩ := shape_of_map_length_eq (readSize A) _ _ hml s1 s2 s3
  rw [chunksBy_flatten_of_shape (readSize A) (readSize_pos A) _ t1 t2 t3]
  apply openAll_first_fail
  · intro x hx
    have hxe : x ∈ encBody A key nonce p := by
      rw [hdec]
      exact List.mem_append_left _ hx
    rw [encBody_eq] at hxe
    rcases List.mem_map.mp hxe with ⟨d, _, hd⟩
    exact ⟨d, hd.symm⟩
  · rw [← hcs]
    apply A.tamper_single
    · intro x hx
      apply hp
      have hc' : c ∈ chunksBy chunkSize p := hc
      exact mem_of_mem_chunksBy chunkSize chunkSize_pos p c hc' x hx
    · exact hb
    · rw [hcs]
      exact ho
    · have hq : (encBytes A key nonce p).getD i 0 =
          (encBody A key nonce p).flatten.getD (i - nonce.length) 0 := by
        unfold encBytes
        exact List.getD_append_right _ _ _ _ hnle
      rw [hcs]
      rw [hq, hgetD] at hne
      exact hne

/-- A file shorter than the nonce (missing or truncated nonce) fails
decryption: `io.ReadFull` cannot fill the nonce buffer. -/
theorem decrypt_short (A : AEAD) (key f : List Nat) (hk : key.length = 32)
    (hf : f.length < A.nonceSize) : DecryptFile A key f = .error .ioError := by
  unfold DecryptFile
  rw [if_neg (by omega), if_pos hf]

/-- Decimal digit test of the integer verb of Go's `fmt` scanner. -/
def isDigitCh (c : Char) : Bool := decide ('0' ≤ c) && decide (c ≤ '9')

/-- Value of a nonempty decimal digit run. -/
def digitsVal (ds : List Char) : Nat :=
  ds.foldl (fun a c => a * 10 + (c.toNat - 48)) 0

/-- Scan an unsigned decimal integer from the front of the input,
returning its value and the unconsumed rest; fails on no digits. -/
def scanNat (cs : List Char) : Option (Nat × List Char) :=
  let ds := cs.takeWhile isDigitCh
  if ds = [] then none else some (digitsVal ds, cs.dropWhile isDigitCh)

/-- Scan a decimal integer with an optional sign (the `%d` verb). -/
def scanInt : List Char → Option (Int × List Char)
  | '-' :: cs => (scanNat cs).map (fun t => (-(t.1 : Int), t.2))
  | '+' :: cs => (scanNat cs).map (fun t => ((t.1 : Int), t.2))
  | cs => (scanNat cs).map (fun t => ((t.1 : Int), t.2))

/-- Match a literal character sequence at the front of the input. -/
def dropLiteral : List Char → List Char → Option (List Char)
  | [], cs => some cs
  | _ :: _, [] => none
  | l :: ls, c :: cs => if c = l then dropLiteral ls cs else none

/-- Model of `fmt.Sscanf(rangeHeader, "bytes=%d-%d", &start, &end)` as
used by `parseRange`: both variables are zero-initialized, the returned
error is ignored, and a scan that stops early leaves the remaining
variables at zero.  (Interior whitespace handling and 64-bit overflow of
the scanner are not modelled; no claim involves them.) -/
def sscanfRange (s : String) : Int × Int :=
  match dropLiteral "bytes=".data s.data with
  | none => (0, 0)
  | some r1 =>
    match scanInt r1 with
    | none => (0, 0)
    | some (st, r2) =>
      match r2 with
      | '-' :: r3 =>
        match scanInt r3 with
        | none => (st, 0)
        | some (en, _) => (st, en)
      | _ => (st, 0)

/-- Model of `parseRange` in `internal/handlers/video.go`: scan the
header, default an `end` equal to `0` to `size-1`, then reject if
`start > end`, `start < 0`, or `end >= size`. -/
def parseRange (rangeHeader : String) (size : Int) : Option (Int × Int) :=
  let se := sscanfRange rangeHeader
  let start := se.1
  let e := if se.2 = 0 then size - 1 else se.2
  if start > e ∨ start < 0 ∨ e ≥ size then none else some (start, e)

/-- The observable response of `StreamVideo`'s Range branch: the HTTP
status, the `Content-Range` values `(start, end, total)` when present,
and the transmitted bytes. -/
structure RangeResp where
  status : Nat
  contentRange : Option (Int × Int × Int)
  body : List Nat
deriving DecidableEq

/-- Model of the Range branch of `StreamVideo`: a parse failure is
answered 416 with no bytes; a parsed range `(s, e)` is answered 206 with
`Content-Range: bytes s-e/size` and the `e-s+1` bytes from offset `s`
(`Seek(ranges[0], 0)` then `io.CopyN(..., length)`). -/
def streamRange (file : List Nat) (rangeHeader : String) : RangeResp :=
  match parseRange rangeHeader (file.length : Int) with
  | none => ⟨416, none, []⟩
  | some (s, e) =>
    ⟨206, some (s, e, (file.length : Int)), (file.drop s.toNat).take (e - s + 1).toNat⟩

/-- Filesystem-effect events emitted by the codec's file operations. -/
inductive Ev
  | mkdirAll (d : String)
  | createTemp (p : String)
  | chmodFile (p : String)
  | statFile (p : String)
  | openRead (p : String)
  | openWrite (p : String)
  | write (p : String) (data : List Nat)
  | read (p : String)
  | rename (src dst : String)
  | remove (p : String)
deriving DecidableEq

/-- Whether an event can create, modify, or replace the file at `p`
(directory creation, stat, and read-only events cannot). -/
def modifiesPath (e : Ev) (p : String) : Bool :=
  match e with
  | .createTemp q => q = p
  | .chmodFile q => q = p
  | .openWrite q => q = p
  | .write q _ => q = p
  | .rename _ dst => dst = p
  | .remove q => q = p
  | _ => false

/-- Unix `filepath.IsAbs`: the path begins with a slash. -/
def isAbs (p : String) : Bool :=
  match p.data with
  | [] => false
  | c :: _ => c = '/'

/-- Simplified model of `filepath.Dir`: the input up to its last slash,
`"."` when there is none.  Only the identity of the resulting directory
string matters to the claims, never its exact shape. -/
def dirname (p : String) : String :=
  let cs := (p.data.reverse.dropWhile (fun c => c ≠ '/')).drop 1
  if cs.isEmpty then "." else ⟨cs.reverse⟩

/-- One planned I/O step of an operation: the event it emits when the
environment lets it succeed, and an error the step raises from the file
contents themselves right after its event (a short nonce read, or a
failed `gcm.Open` on the block the read returned). -/
structure Step where
  ev : Option Ev
  contentErr : Option Err
deriving DecidableEq

/-- A step that always succeeds unless the environment fails it. -/
def stepEv (e : Ev) : Step := ⟨some e, none⟩

/-- Run planned steps in order against a failure oracle: step `idx`
fails with an I/O error when `failAt = some idx` (emitting no event),
and a step's own content error stops the run right after its event. -/
def runItems (failAt : Option Nat) :
    List Step → Nat → List Ev → List Ev × Option Err
  | [], _, acc => (acc, none)
  | s :: rest, idx, acc =>
    if failAt = some idx then (acc, some .ioError)
    else
      match s.contentErr with
      | some e => (acc ++ s.ev.toList, some e)
      | none => runItems failAt rest (idx + 1) (acc ++ s.ev.toList)

/-- Shared effect skeleton of `EncryptFile` and `DecryptFile`:
`createTempFile` (ensure the temp dir, create the temp file, chmod it —
a chmod failure removes the file again), then the key-length check,
then the operation's remaining steps; every failure after the temp file
was registered ends with the deferred `cleanup.Cleanup()` removing it,
and a successful run (whose last step is the rename) removes nothing. -/
def fsExec (failAt : Option Nat) (tmpDir tmpP : String) (keyLen : Nat)
    (items : List Step) : List Ev × Option Err :=
  if failAt = some 0 then ([], some .ioError)
  else if failAt = some 1 then ([.mkdirAll tmpDir], some .ioError)
  else if failAt = some 2 then
    ([.mkdirAll tmpDir, .createTemp tmpP, .remove tmpP], some .ioError)
  else if keyLen ≠ 32 then
    ([.mkdirAll tmpDir, .createTemp tmpP, .chmodFile tmpP, .remove tmpP],
      some .invalidKey)
  else
    match runItems failAt items 3
        [.mkdirAll tmpDir, .createTemp tmpP, .chmodFile tmpP] with
    | (evs, some e) => (evs ++ [.remove tmpP], some e)
    | (evs, none) => (evs, none)

/-- The steps of `EncryptFile` before the final rename, after the temp
file is staged and the key validated, in source order: validate input
(ensure its directory, stat it), validate output (ensure its
directory), open the input, ensure the output directory, open and chmod
the staged file, draw the random nonce (no filesystem event), write the
nonce, then per 64 KiB chunk one read and one sealed write, and the
final zero-byte read that ends the loop. -/
def encPre (A : AEAD) (key nonce p : List Nat) (inP outP tmpP : String) :
    List Step :=
  [stepEv (.mkdirAll (dirname inP)), stepEv (.statFile inP),
   stepEv (.mkdirAll (dirname outP)),
   stepEv (.openRead inP),
   stepEv (.mkdirAll (dirname outP)),
   stepEv (.openWrite tmpP), stepEv (.chmodFile tmpP),
   ⟨none, none⟩,
   stepEv (.write tmpP nonce)]
  ++ ((chunks p).map (fun c =>
       [stepEv (.read inP), stepEv (.write tmpP (A.aeSeal key nonce c))])).flatten
  ++ [stepEv (.read inP)]

/-- All of `EncryptFile`'s steps: the pre-rename steps followed by the
atomic rename of the staged file onto the destination. -/
def encSteps (A : AEAD) (key nonce p : List Nat) (inP outP tmpP : String) :
    List Step :=
  encPre A key nonce p inP outP tmpP ++ [stepEv (.rename tmpP outP)]

/-- Trace-level model of `EncryptFile`: the two absolute-path checks
happen before any effect; then the shared skeleton runs the steps. -/
def EncryptFileTrace (failAt : Option Nat) (A : AEAD) (key nonce p : List Nat)
    (inP outP tmpP tmpDir : String) : List Ev × Option Err :=
  if ¬ isAbs inP then ([], some .invalidPath)
  else if ¬ isAbs outP then ([], some .invalidPath)
  else fsExec failAt tmpDir tmpP key.length (encSteps A key nonce p inP outP tmpP)

/-- The per-block steps of `DecryptFile`'s loop: read a block, `Open`
it; on success write the recovered plaintext and continue, on failure
stop with the authentication error; after the blocks a final zero-byte
read ends the loop. -/
def decBlockSteps (A : AEAD) (key nonce : List Nat) (inP tmpP : String) :
    List (List Nat) → List Step
  | [] => [stepEv (.read inP)]
  | b :: bs =>
    match A.aeOpen key nonce b with
    | none => [⟨some (.read inP), some .authenticationError⟩]
    | some pt =>
      stepEv (.read inP) :: stepEv (.write tmpP pt) ::
        decBlockSteps A key nonce inP tmpP bs

/-- The steps of `DecryptFile` up to and including the nonce read, in
source order: validate input and output, open both files, chmod the
staged file, and read the nonce — which fails from the file contents
when the file is shorter than the nonce.  Note there is no
absolute-path validation anywhere in `DecryptFile`. -/
def decPre (A : AEAD) (file : List Nat) (inP outP tmpP : String) : List Step :=
  [stepEv (.mkdirAll (dirname inP)), stepEv (.statFile inP),
   stepEv (.mkdirAll (dirname outP)),
   stepEv (.openRead inP),
   stepEv (.openWrite tmpP), stepEv (.chmodFile tmpP),
   ⟨some (.read inP), if file.length < A.nonceSize then some .ioError else none⟩]

/-- All of `DecryptFile`'s steps after the temp file is staged and the
key validated: the prefix up to the nonce read, then (when the nonce
read can succeed) the block loop and the atomic rename. -/
def decSteps (A : AEAD) (key file : List Nat) (inP outP tmpP : String) :
    List Step :=
  decPre A file inP outP tmpP
  ++ (if file.length < A.nonceSize then [] else
      decBlockSteps A key (file.take A.nonceSize) inP tmpP
        (chunksBy (readSize A) (file.drop A.nonceSize))
      ++ [stepEv (.rename tmpP outP)])

/-- Trace-level model of `DecryptFile`. -/
def DecryptFileTrace (failAt : Option Nat) (A : AEAD) (key file : List Nat)
    (inP outP tmpP tmpDir : String) : List Ev × Option Err :=
  fsExec failAt tmpDir tmpP key.length (decSteps A key file inP outP tmpP)

/-- The events a list of steps emits when all of them succeed. -/
def stepEvsOf (items : List Step) : List Ev := items.filterMap (fun s => s.ev)

theorem stepEvsOf_nil : stepEvsOf [] = [] := rfl

theorem stepEvsOf_cons (s : Step) (r : List Step) :
    stepEvsOf (s :: r) = s.ev.toList ++ stepEvsOf r := by
  cases hs : s.ev <;> simp [stepEvsOf, List.filterMap_cons, hs]

theorem stepEvsOf_append (a b : List Step) :
    stepEvsOf (a ++ b) = stepEvsOf a ++ stepEvsOf b := by
  simp [stepEvsOf, List.filterMap_append]

theorem runItems_error (failAt : Option Nat) :
    ∀ (items : List Step) (idx : Nat) (acc : List Ev) (e : Err),
      (runItems failAt items idx acc).2 = some e →
      ∃ k, k ≤ items.length ∧
        (runItems failAt items idx acc).1 = acc ++ stepEvsOf (items.take k) ∧
        (k = items.length →
          ∃ last, items.getLast? = some last ∧ last.contentErr = some e) ∧
        (e = .ioError ∨ some e ∈ items.map (fun s => s.contentErr)) := by
  intro items
  induction items with
  | nil =>
    intro idx acc e h
    simp [runItems] at h
  | cons s rest ih =>
    intro idx acc e h
    by_cases hf : failAt = some idx
    · refine ⟨0, by simp, ?_, ?_, ?_⟩
      · simp [runItems, hf, stepEvsOf_nil]
      · intro h0; simp at h0
      · left
        simp only [runItems, hf, if_pos] at h
        simp at h
        exact h.symm
    · cases hce : s.contentErr with
      | some e' =>
        have hres : runItems failAt (s :: rest) idx acc =
            (acc ++ s.ev.toList, some e') := by
          simp [runItems, hf, hce]
        rw [hres] at h
        simp at h
        subst h
        refine ⟨1, by simp, ?_, ?_, ?_⟩
        · rw [hres]
          simp [List.take_succ_cons, stepEvsOf_cons, stepEvsOf_nil]
        · intro h1
          cases rest with
          | nil => exact ⟨s, rfl, hce⟩
          | cons a b => simp at h1
        · right
          simp [hce]
      | none =>
        have hres : runItems failAt (s :: rest) idx acc =
            runItems failAt rest (idx + 1) (acc ++ s.ev.toList) := by
          simp [runItems, hf, hce]
        rw [hres] at h
        obtain ⟨k, hk, htr, hlast, hcls⟩ := ih (idx + 1) (acc ++ s.ev.toList) e h
        refine ⟨k + 1, by simp; omega, ?_, ?_, ?_⟩
        · rw [hres, htr, List.take_succ_cons, stepEvsOf_cons, List.append_assoc]
        · intro hkl
          simp only [List.length_cons] at hkl
          have hk' : k = rest.length := by omega
          have hrest_ne : rest ≠ [] := by
            intro hnil
            subst hnil
            simp [runItems] at h
          obtain ⟨last, hl1, hl2⟩ := hlast hk'
          refine ⟨last, ?_, hl2⟩
          cases rest with
          | nil => exact absurd rfl hrest_ne
          | cons a b =>
            rw [List.getLast?_cons_cons]
            exact hl1
        · rcases hcls with h1 | h1
          · left; exact h1
          · right
            rw [List.map_cons, hce]
            exact List.mem_cons_of_mem _ h1

theorem runItems_success_all (failAt : Option Nat) :
    ∀ (items : List Step) (idx : Nat) (acc : List Ev),
      (runItems failAt items idx acc).2 = none →
      ∀ s ∈ items, s.contentErr = none := by
  intro items
  induction items with
  | nil => intro idx acc _ s hs; simp at hs
  | cons s rest ih =>
    intro idx acc h t ht
    by_cases hf : failAt = some idx
    · simp [runItems, hf] at h
    · cases hce : s.contentErr with
      | some e' => simp [runItems, hf, hce] at h
      | none =>
        have hres : runItems failAt (s :: rest) idx acc =
            runItems failAt rest (idx + 1) (acc ++ s.ev.toList) := by
          simp [runItems, hf, hce]
        rw [hres] at h
        rcases List.mem_cons.mp ht with rfl | ht'
        · exact hce
        · exact ih (idx + 1) (acc ++ s.ev.toList) h t ht'

theorem runItems_success (failAt : Option Nat) :
    ∀ (items : List Step) (idx : Nat) (acc : List Ev),
      (runItems failAt items idx acc).2 = none →
      (runItems failAt items idx acc).1 = acc ++ stepEvsOf items := by
  intro items
  induction items with
  | nil => intro idx acc _; simp [runItems, stepEvsOf_nil]
  | cons s rest ih =>
    intro idx acc h
    by_cases hf : failAt = some idx
    · simp [runItems, hf] at h
    · cases hce : s.contentErr with
      | some e' => simp [runItems, hf, hce] at h
      | none =>
        have hres : runItems failAt (s :: rest) idx acc =
            runItems failAt rest (idx + 1) (acc ++ s.ev.toList) := by
          simp [runItems, hf, hce]
        rw [hres] at h ⊢
        rw [ih (idx + 1) (acc ++ s.ev.toList) h, stepEvsOf_cons,
          List.append_assoc]

/-- Data written to `p` by a list of events, in emission order. -/
def writesTo (p : String) (evs : List Ev) : List (List Nat) :=
  evs.filterMap (fun e => match e with
    | .write q d => if q = p then some d else none
    | _ => none)

theorem writesTo_append (p : String) (a b : List Ev) :
    writesTo p (a ++ b) = writesTo p a ++ writesTo p b := by
  simp [writesTo, List.filterMap_append]

theorem mem_take_mem_dropLast {α : Type} (l : List α) (k : Nat)
    (hk : k < l.length) (x : α) (hx : x ∈ l.take k) : x ∈ l.dropLast := by
  have h1 : l.take k = l.dropLast.take k := by
    rw [List.dropLast_eq_take, List.take_take, min_eq_left (by omega)]
  rw [h1] at hx
  exact List.mem_of_mem_take hx

theorem encLoop_mem (A : AEAD) (key nonce : List Nat) (inP tmpP : String)
    (cs : List (List Nat)) (s : Step)
    (hs : s ∈ (cs.map (fun c =>
      [stepEv (.read inP), stepEv (.write tmpP (A.aeSeal key nonce c))])).flatten) :
    s = stepEv (.read inP) ∨ ∃ d, s = stepEv (.write tmpP d) := by
  rcases List.mem_flatten.mp hs with ⟨l, hl, hsl⟩
  rcases List.mem_map.mp hl with ⟨c, _, rfl⟩
  rcases List.mem_cons.mp hsl with rfl | hsl'
  · left; rfl
  · rcases List.mem_cons.mp hsl' with rfl | hsl''
    · right; exact ⟨A.aeSeal key nonce c, rfl⟩
    · simp at hsl''

theorem encPre_contentErr (A : AEAD) (key nonce p : List Nat)
    (inP outP tmpP : String) :
    ∀ s ∈ encPre A key nonce p inP outP tmpP, s.contentErr = none := by
  intro s hs
  unfold encPre at hs
  rcases List.mem_append.mp hs with hs' | hs'
  · rcases List.mem_append.mp hs' with h9 | hloop
    · rcases List.mem_cons.mp h9 with rfl | h9
      · rfl
      · rcases List.mem_cons.mp h9 with rfl | h9
        · rfl
        · rcases List.mem_cons.mp h9 with rfl | h9
          · rfl
          · rcases List.mem_cons.mp h9 with rfl | h9
            · rfl
            · rcases List.mem_cons.mp h9 with rfl | h9
              · rfl
              · rcases List.mem_cons.mp h9 with rfl | h9
                · rfl
                · rcases List.mem_cons.mp h9 with rfl | h9
                  · rfl
                  · rcases List.mem_cons.mp h9 with rfl | h9
                    · rfl
                    · rcases List.mem_cons.mp h9 with rfl | h9
                      · rfl
                      · simp at h9
    · rcases encLoop_mem A key nonce inP tmpP (chunks p) s hloop with rfl | ⟨d, rfl⟩
      · rfl
      · rfl
  · rcases List.mem_cons.mp hs' with rfl | h
    · rfl
    · simp at h

theorem encPre_safe (A : AEAD) (key nonce p : List Nat)
    (inP outP tmpP : String) (hne : tmpP ≠ outP) :
    ∀ s ∈ encPre A key nonce p inP outP tmpP,
      ∀ ev, s.ev = some ev → modifiesPath ev outP = false := by
  intro s hs ev hev
  unfold encPre at hs
  rcases List.mem_append.mp hs with hs' | hs'
  · rcases List.mem_append.mp hs' with h9 | hloop
    · rcases List.mem_cons.mp h9 with rfl | h9
      · cases hev; simp [modifiesPath]
      · rcases List.mem_cons.mp h9 with rfl | h9
        · cases hev; simp [modifiesPath]
        · rcases List.mem_cons.mp h9 with rfl | h9
          · cases hev; simp [modifiesPath]
          · rcases List.mem_cons.mp h9 with rfl | h9
            · cases hev; simp [modifiesPath]
            · rcases List.mem_cons.mp h9 with rfl | h9
              · cases hev; simp [modifiesPath]
              · rcases List.mem_cons.mp h9 with rfl | h9
                · cases hev; simp [modifiesPath, hne]
                · rcases List.mem_cons.mp h9 with rfl | h9
                  · cases hev; simp [modifiesPath, hne]
                  · rcases List.mem_cons.mp h9 with rfl | h9
                    · cases hev
                    · rcases List.mem_cons.mp h9 with rfl | h9
                      · cases hev; simp [modifiesPath, hne]
                      · simp at h9
    · rcases encLoop_mem A key nonce inP tmpP (chunks p) s hloop with rfl | ⟨d, rfl⟩
      · cases hev; simp [modifiesPath]
      · cases hev; simp [modifiesPath, hne]
  · rcases List.mem_cons.mp hs' with rfl | h
    · cases hev; simp [modifiesPath]
    · simp at h

theorem encSteps_getLast (A : AEAD) (key nonce p : List Nat)
    (inP outP tmpP : String) :
    (encSteps A key nonce p inP outP tmpP).getLast? =
      some (stepEv (.rename tmpP outP)) := by
  unfold encSteps
  exact List.getLast?_concat _

theorem encSteps_dropLast (A : AEAD) (key nonce p : List Nat)
    (inP outP tmpP : String) :
    (encSteps A key nonce p inP outP tmpP).dropLast =
      encPre A key nonce p inP outP tmpP := by
  unfold encSteps
  exact List.dropLast_concat

theorem decBlock_mem (A : AEAD) (key nonce : List Nat) (inP tmpP : String) :
    ∀ (bs : List (List Nat)) (s : Step),
      s ∈ decBlockSteps A key nonce inP tmpP bs →
      (s.ev = some (.read inP) ∨ ∃ d, s.ev = some (.write tmpP d)) ∧
      (s.contentErr = none ∨ s.contentErr = some .authenticationError) := by
  intro bs
  induction bs with
  | nil =>
    intro s hs
    simp only [decBlockSteps] at hs
    rcases List.mem_cons.mp hs with rfl | h
    · exact ⟨Or.inl rfl, Or.inl rfl⟩
    · simp at h
  | cons b bs ih =>
    intro s hs
    cases hop : A.aeOpen key nonce b with
    | none =>
      simp only [decBlockSteps, hop] at hs
      rcases List.mem_cons.mp hs with rfl | h
      · exact ⟨Or.inl rfl, Or.inr rfl⟩
      · simp at h
    | some pt =>
      simp only [decBlockSteps, hop] at hs
      rcases List.mem_cons.mp hs with rfl | h
      · exact ⟨Or.inl rfl, Or.inl rfl⟩
      · rcases List.mem_cons.mp h with rfl | h'
        · exact ⟨Or.inr ⟨pt, rfl⟩, Or.inl rfl⟩
        · exact ih s h'

theorem decPre_contentErr (A : AEAD) (file : List Nat) (inP outP tmpP : String) :
    ∀ s ∈ decPre A file inP outP tmpP,
      s.contentErr = none ∨ s.contentErr = some .ioError := by
  intro s hs
  unfold decPre at hs
  rcases List.mem_cons.mp hs with rfl | h
  · left; rfl
  · rcases List.mem_cons.mp h with rfl | h
    · left; rfl
    · rcases List.mem_cons.mp h with rfl | h
      · left; rfl
      · rcases List.mem_cons.mp h with rfl | h
        · left; rfl
        · rcases List.mem_cons.mp h with rfl | h
          · left; rfl
          · rcases List.mem_cons.mp h with rfl | h
            · left; rfl
            · rcases List.mem_cons.mp h with rfl | h
              · by_cases hc : file.length < A.nonceSize
                · right; simp [hc]
                · left; simp [hc]
              · simp at h

theorem decPre_safe (A : AEAD) (file : List Nat) (inP outP tmpP : String)
    (hne : tmpP ≠ outP) :
    ∀ s ∈ decPre A file inP outP tmpP,
      ∀ ev, s.ev = some ev → modifiesPath ev outP = false := by
  intro s hs ev hev
  unfold decPre at hs
  rcases List.mem_cons.mp hs with rfl | h
  · cases hev; simp [modifiesPath]
  · rcases List.mem_cons.mp h with rfl | h
    · cases hev; simp [modifiesPath]
    · rcases List.mem_cons.mp h with rfl | h
      · cases hev; simp [modifiesPath]
      · rcases List.mem_cons.mp h with rfl | h
        · cases hev; simp [modifiesPath]
        · rcases List.mem_cons.mp h with rfl | h
          · cases hev; simp [modifiesPath, hne]
          · rcases List.mem_cons.mp h with rfl | h
            · cases hev; simp [modifiesPath, hne]
            · rcases List.mem_cons.mp h with rfl | h
              · cases hev; simp [modifiesPath]
              · simp at h

theorem decSteps_short (A : AEAD) (key file : List Nat)
    (inP outP tmpP : String) (hshort : file.length < A.nonceSize) :
    decSteps A key file inP outP tmpP = decPre A file inP outP tmpP := by
  unfold decSteps
  rw [if_pos hshort, List.append_nil]

theorem decSteps_long (A : AEAD) (key file : List Nat)
    (inP outP tmpP : String) (hlong : ¬ file.length < A.nonceSize) :
    decSteps A key file inP outP tmpP =
      (decPre A file inP outP tmpP ++
        decBlockSteps A key (file.take A.nonceSize) inP tmpP
          (chunksBy (readSize A) (file.drop A.nonceSize)))
      ++ [stepEv (.rename tmpP outP)] := by
  unfold decSteps
  rw [if_neg hlong, ← List.append_assoc]

theorem decSteps_getLast_long (A : AEAD) (key file : List Nat)
    (inP outP tmpP : String) (hlong : ¬ file.length < A.nonceSize) :
    (decSteps A key file inP outP tmpP).getLast? =
      some (stepEv (.rename tmpP outP)) := by
  rw [decSteps_long A key file inP outP tmpP hlong]
  exact List.getLast?_concat _

theorem decSteps_dropLast_long (A : AEAD) (key file : List Nat)
    (inP outP tmpP : String) (hlong : ¬ file.length < A.nonceSize) :
    (decSteps A key file inP outP tmpP).dropLast =
      decPre A file inP outP tmpP ++
        decBlockSteps A key (file.take A.nonceSize) inP tmpP
          (chunksBy (readSize A) (file.drop A.nonceSize)) := by
  rw [decSteps_long A key file inP outP tmpP hlong]
  exact List.dropLast_concat

theorem fsExec_error_shape (failAt : Option Nat) (tmpDir tmpP : String)
    (keyLen : Nat) (items : List Step) (e : Err)
    (h : (fsExec failAt tmpDir tmpP keyLen items).2 = some e) :
    ∃ k, k ≤ items.length ∧
      (k = items.length → items ≠ [] →
        ∃ last, items.getLast? = some last ∧ last.contentErr = some e) ∧
      ∀ ev ∈ (fsExec failAt tmpDir tmpP keyLen items).1,
        ev = Ev.mkdirAll tmpDir ∨ ev = Ev.createTemp tmpP ∨
        ev = Ev.chmodFile tmpP ∨ ev = Ev.remove tmpP ∨
        ev ∈ stepEvsOf (items.take k) := by
  by_cases h0 : failAt = some 0
  · have hres : fsExec failAt tmpDir tmpP keyLen items = ([], some .ioError) := by
      unfold fsExec
      rw [if_pos h0]
    refine ⟨0, Nat.zero_le _, ?_, ?_⟩
    · intro hk hn
      exact absurd (List.eq_nil_of_length_eq_zero hk.symm) hn
    · rw [hres]
      intro ev hev
      simp at hev
  · by_cases h1 : failAt = some 1
    · have hres : fsExec failAt tmpDir tmpP keyLen items =
          ([.mkdirAll tmpDir], some .ioError) := by
        unfold fsExec
        rw [if_neg h0, if_pos h1]
      refine ⟨0, Nat.zero_le _, ?_, ?_⟩
      · intro hk hn
        exact absurd (List.eq_nil_of_length_eq_zero hk.symm) hn
      · rw [hres]
        intro ev hev
        rcases List.mem_cons.mp hev with rfl | hev'
        · exact Or.inl rfl
        · simp at hev'
    · by_cases h2 : failAt = some 2
      · have hres : fsExec failAt tmpDir tmpP keyLen items =
            ([.mkdirAll tmpDir, .createTemp tmpP, .remove tmpP],
              some .ioError) := by
          unfold fsExec
          rw [if_neg h0, if_neg h1, if_pos h2]
        refine ⟨0, Nat.zero_le _, ?_, ?_⟩
        · intro hk hn
          exact absurd (List.eq_nil_of_length_eq_zero hk.symm) hn
        · rw [hres]
          intro ev hev
          rcases List.mem_cons.mp hev with rfl | hev'
          · exact Or.inl rfl
          · rcases List.mem_cons.mp hev' with rfl | hev''
            · exact Or.inr (Or.inl rfl)
            · rcases List.mem_cons.mp hev'' with rfl | hev3
              · exact Or.inr (Or.inr (Or.inr (Or.inl rfl)))
              · simp at hev3
      · by_cases hkey : keyLen ≠ 32
        · have hres : fsExec failAt tmpDir tmpP keyLen items =
              ([.mkdirAll tmpDir, .createTemp tmpP, .chmodFile tmpP,
                .remove tmpP], some .invalidKey) := by
            unfold fsExec
            rw [if_neg h0, if_neg h1, if_neg h2, if_pos hkey]
          refine ⟨0, Nat.zero_le _, ?_, ?_⟩
          · intro hk hn
            exact absurd (List.eq_nil_of_length_eq_zero hk.symm) hn
          · rw [hres]
            intro ev hev
            rcases List.mem_cons.mp hev with rfl | hev'
            · exact Or.inl rfl
            · rcases List.mem_cons.mp hev' with rfl | hev''
              · exact Or.inr (Or.inl rfl)
              · rcases List.mem_cons.mp hev'' with rfl | hev3
                · exact Or.inr (Or.inr (Or.inl rfl))
                · rcases List.mem_cons.mp hev3 with rfl | hev4
                  · exact Or.inr (Or.inr (Or.inr (Or.inl rfl)))
                  · simp at hev4
        · cases hrun : runItems failAt items 3
              [Ev.mkdirAll tmpDir, Ev.createTemp tmpP, Ev.chmodFile tmpP] with
          | mk evs res =>
            cases res with
            | none =>
              have hres : fsExec failAt tmpDir tmpP keyLen items = (evs, none) := by
                unfold fsExec
                rw [if_neg h0, if_neg h1, if_neg h2, if_neg hkey, hrun]
              rw [hres] at h
              simp at h
            | some e' =>
              have hres : fsExec failAt tmpDir tmpP keyLen items =
                  (evs ++ [Ev.remove tmpP], some e') := by
                unfold fsExec
                rw [if_neg h0, if_neg h1, if_neg h2, if_neg hkey, hrun]
              rw [hres] at h
              simp only at h
              have hee : e' = e := Option.some.inj h
              subst hee
              have hr2 : (runItems failAt items 3
                  [Ev.mkdirAll tmpDir, Ev.createTemp tmpP, Ev.chmodFile tmpP]).2
                  = some e' := by rw [hrun]
              obtain ⟨k, hk, htr, hlast, _⟩ :=
                runItems_error failAt items 3 _ e' hr2
              rw [hrun] at htr
              have htr2 : evs = [Ev.mkdirAll tmpDir, Ev.createTemp tmpP,
                  Ev.chmodFile tmpP] ++ stepEvsOf (items.take k) := htr
              refine ⟨k, hk, ?_, ?_⟩
              · intro hkl _
                exact hlast hkl
              · rw [hres]
                intro ev hev
                rcases List.mem_append.mp hev with hev' | hev'
                · rw [htr2] at hev'
                  rcases List.mem_append.mp hev' with hacc | hst
                  · rcases List.mem_cons.mp hacc with rfl | hacc'
                    · exact Or.inl rfl
                    · rcases List.mem_cons.mp hacc' with rfl | hacc''
                      · exact Or.inr (Or.inl rfl)
                      · rcases List.mem_cons.mp hacc'' with rfl | hacc3
                        · exact Or.inr (Or.inr (Or.inl rfl))
                        · simp at hacc3
                  · exact Or.inr (Or.inr (Or.inr (Or.inr hst)))
                · rcases List.mem_cons.mp hev' with rfl | hx
                  · exact Or.inr (Or.inr (Or.inr (Or.inl rfl)))
                  · simp at hx

theorem fsExec_success_shape (failAt : Option Nat) (tmpDir tmpP : String)
    (keyLen : Nat) (items : List Step)
    (h : (fsExec failAt tmpDir tmpP keyLen items).2 = none) :
    (fsExec failAt tmpDir tmpP keyLen items).1 =
      [Ev.mkdirAll tmpDir, Ev.createTemp tmpP, Ev.chmodFile tmpP] ++
        stepEvsOf items ∧
      keyLen = 32 ∧
      (∀ s ∈ items, s.contentErr = none) := by
  by_cases h0 : failAt = some 0
  · have hres : fsExec failAt tmpDir tmpP keyLen items = ([], some .ioError) := by
      unfold fsExec
      rw [if_pos h0]
    rw [hres] at h
    simp at h
  · by_cases h1 : failAt = some 1
    · have hres : fsExec failAt tmpDir tmpP keyLen items =
          ([.mkdirAll tmpDir], some .ioError) := by
        unfold fsExec
        rw [if_neg h0, if_pos h1]
      rw [hres] at h
      simp at h
    · by_cases h2 : failAt = some 2
      · have hres : fsExec failAt tmpDir tmpP keyLen items =
            ([.mkdirAll tmpDir, .createTemp tmpP, .remove tmpP],
              some .ioError) := by
          unfold fsExec
          rw [if_neg h0, if_neg h1, if_pos h2]
        rw [hres] at h
        simp at h
      · by_cases hkey : keyLen ≠ 32
        · have hres : fsExec failAt tmpDir tmpP keyLen items =
              ([.mkdirAll tmpDir, .createTemp tmpP, .chmodFile tmpP,
                .remove tmpP], some .invalidKey) := by
            unfold fsExec
            rw [if_neg h0, if_neg h1, if_neg h2, if_pos hkey]
          rw [hres] at h
          simp at h
        · cases hrun : runItems failAt items 3
              [Ev.mkdirAll tmpDir, Ev.createTemp tmpP, Ev.chmodFile tmpP] with
          | mk evs res =>
            cases res with
            | some e' =>
              have hres : fsExec failAt tmpDir tmpP keyLen items =
                  (evs ++ [Ev.remove tmpP], some e') := by
                unfold fsExec
                rw [if_neg h0, if_neg h1, if_neg h2, if_neg hkey, hrun]
              rw [hres] at h
              simp at h
            | none =>
              have hres : fsExec failAt tmpDir tmpP keyLen items = (evs, none) := by
                unfold fsExec
                rw [if_neg h0, if_neg h1, if_neg h2, if_neg hkey, hrun]
              push_neg at hkey
              have hr2 : (runItems failAt items 3
                  [Ev.mkdirAll tmpDir, Ev.createTemp tmpP, Ev.chmodFile tmpP]).2
                  = none := by rw [hrun]
              have htr := runItems_success failAt items 3 _ hr2
              have hcerr := runItems_success_all failAt items 3 _ hr2
              rw [hrun] at htr
              rw [hres]
              exact ⟨htr, hkey, hcerr⟩

theorem fsExec_error_class (failAt : Option Nat) (tmpDir tmpP : String)
    (keyLen : Nat) (items : List Step) (e : Err)
    (h : (fsExec failAt tmpDir tmpP keyLen items).2 = some e) :
    e = .ioError ∨ e = .invalidKey ∨
      some e ∈ items.map (fun s => s.contentErr) := by
  by_cases h0 : failAt = some 0
  · have hres : fsExec failAt tmpDir tmpP keyLen items = ([], some .ioError) := by
      unfold fsExec
      rw [if_pos h0]
    rw [hres] at h
    exact Or.inl (Option.some.inj h).symm
  · by_cases h1 : failAt = some 1
    · have hres : fsExec failAt tmpDir tmpP keyLen items =
          ([.mkdirAll tmpDir], some .ioError) := by
        unfold fsExec
        rw [if_neg h0, if_pos h1]
      rw [hres] at h
      exact Or.inl (Option.some.inj h).symm
    · by_cases h2 : failAt = some 2
      · have hres : fsExec failAt tmpDir tmpP keyLen items =
            ([.mkdirAll tmpDir, .createTemp tmpP, .remove tmpP],
              some .ioError) := by
          unfold fsExec
          rw [if_neg h0, if_neg h1, if_pos h2]
        rw [hres] at h
        exact Or.inl (Option.some.inj h).symm
      · by_cases hkey : keyLen ≠ 32
        · have hres : fsExec failAt tmpDir tmpP keyLen items =
              ([.mkdirAll tmpDir, .createTemp tmpP, .chmodFile tmpP,
                .remove tmpP], some .invalidKey) := by
            unfold fsExec
            rw [if_neg h0, if_neg h1, if_neg h2, if_pos hkey]
          rw [hres] at h
          exact Or.inr (Or.inl (Option.some.inj h).symm)
        · cases hrun : runItems failAt items 3
              [Ev.mkdirAll tmpDir, Ev.createTemp tmpP, Ev.chmodFile tmpP] with
          | mk evs res =>
            cases res with
            | none =>
              have hres : fsExec failAt tmpDir tmpP keyLen items = (evs, none) := by
                unfold fsExec
                rw [if_neg h0, if_neg h1, if_neg h2, if_neg hkey, hrun]
              rw [hres] at h
              simp at h
            | some e' =>
              have hres : fsExec failAt tmpDir tmpP keyLen items =
                  (evs ++ [Ev.remove tmpP], some e') := by
                unfold fsExec
                rw [if_neg h0, if_neg h1, if_neg h2, if_neg hkey, hrun]
              rw [hres] at h
              have hee : e' = e := Option.some.inj h
              subst hee
              have hr2 : (runItems failAt items 3
                  [Ev.mkdirAll tmpDir, Ev.createTemp tmpP, Ev.chmodFile tmpP]).2
                  = some e' := by rw [hrun]
              obtain ⟨_, _, _, _, hcls⟩ :=
                runItems_error failAt items 3 _ e' hr2
              rcases hcls with hc | hc
              · exact Or.inl hc
              · exact Or.inr (Or.inr hc)

theorem mem_stepEvsOf (l : List Step) (ev : Ev) :
    ev ∈ stepEvsOf l ↔ ∃ s ∈ l, s.ev = some ev := by
  simp [stepEvsOf, List.mem_filterMap]

theorem stepEvsOf_encLoop (A : AEAD) (key nonce : List Nat)
    (inP tmpP : String) (cs : List (List Nat)) :
    stepEvsOf ((cs.map (fun c =>
        [stepEv (.read inP), stepEv (.write tmpP (A.aeSeal key nonce c))])).flatten) =
      (cs.map (fun c =>
        [Ev.read inP, Ev.write tmpP (A.aeSeal key nonce c)])).flatten := by
  induction cs with
  | nil => rfl
  | cons c cs ih =>
    simp only [List.map_cons, List.flatten_cons, stepEvsOf_append, ih]
    rfl

theorem writesTo_encLoop (A : AEAD) (key nonce : List Nat)
    (inP tmpP : String) (cs : List (List Nat)) :
    writesTo tmpP ((cs.map (fun c =>
        [Ev.read inP, Ev.write tmpP (A.aeSeal key nonce c)])).flatten) =
      cs.map (A.aeSeal key nonce) := by
  induction cs with
  | nil => rfl
  | cons c cs ih =>
    simp only [List.map_cons, List.flatten_cons, writesTo_append, ih]
    simp [writesTo]

/-- On any error, the trace of `EncryptFile` contains no event that can
create, modify, or replace the destination file. -/
theorem encTrace_error_safe (failAt : Option Nat) (A : AEAD)
    (key nonce p : List Nat) (inP outP tmpP tmpDir : String) (e : Err)
    (hne : tmpP ≠ outP)
    (h : (EncryptFileTrace failAt A key nonce p inP outP tmpP tmpDir).2 = some e) :
    ∀ ev ∈ (EncryptFileTrace failAt A key nonce p inP outP tmpP tmpDir).1,
      modifiesPath ev outP = false := by
  unfold EncryptFileTrace at h ⊢
  by_cases ha1 : isAbs inP = true
  · by_cases ha2 : isAbs outP = true
    · rw [if_neg (by simp [ha1]), if_neg (by simp [ha2])] at h ⊢
      obtain ⟨k, hk, hlast, hmem⟩ :=
        fsExec_error_shape failAt tmpDir tmpP key.length
          (encSteps A key nonce p inP outP tmpP) e h
      intro ev hev
      rcases hmem ev hev with rfl | rfl | rfl | rfl | hst
      · simp [modifiesPath]
      · simp [modifiesPath, hne]
      · simp [modifiesPath, hne]
      · simp [modifiesPath, hne]
      · have hklt : k < (encSteps A key nonce p inP outP tmpP).length := by
          rcases Nat.lt_or_ge k (encSteps A key nonce p inP outP tmpP).length
            with hlt | hge
          · exact hlt
          · exfalso
            have hkeq : k = (encSteps A key nonce p inP outP tmpP).length := by
              omega
            have hsne : encSteps A key nonce p inP outP tmpP ≠ [] := by
              unfold encSteps
              simp
            obtain ⟨last, hl1, hl2⟩ := hlast hkeq hsne
            rw [encSteps_getLast A key nonce p inP outP tmpP] at hl1
            have : last = stepEv (.rename tmpP outP) := (Option.some.inj hl1).symm
            rw [this] at hl2
            simp [stepEv] at hl2
        obtain ⟨s, hs, hsev⟩ := (mem_stepEvsOf _ ev).mp hst
        have hsd : s ∈ (encSteps A key nonce p inP outP tmpP).dropLast :=
          mem_take_mem_dropLast _ k hklt s hs
        rw [encSteps_dropLast A key nonce p inP outP tmpP] at hsd
        exact encPre_safe A key nonce p inP outP tmpP hne s hsd ev hsev
    · rw [if_neg (by simp [ha1]), if_pos (by simp [ha2])] at h ⊢
      intro ev hev
      simp at hev
  · rw [if_pos (by simp [ha1])] at h ⊢
    intro ev hev
    simp at hev

/-- On success, the trace of `EncryptFile` is a prefix that never
touches the destination, followed by the single atomic rename; and the
data written to the staged temp file is exactly the nonce followed by
the sealed 64 KiB chunks, in order. -/
theorem encTrace_success_shape (failAt : Option Nat) (A : AEAD)
    (key nonce p : List Nat) (inP outP tmpP tmpDir : String)
    (hne : tmpP ≠ outP)
    (h : (EncryptFileTrace failAt A key nonce p inP outP tmpP tmpDir).2 = none) :
    ∃ pre, (EncryptFileTrace failAt A key nonce p inP outP tmpP tmpDir).1 =
        pre ++ [Ev.rename tmpP outP] ∧
      (∀ ev ∈ pre, modifiesPath ev outP = false) ∧
      writesTo tmpP
          (EncryptFileTrace failAt A key nonce p inP outP tmpP tmpDir).1 =
        nonce :: (chunks p).map (A.aeSeal key nonce) := by
  unfold EncryptFileTrace at h ⊢
  by_cases ha1 : isAbs inP = true
  · by_cases ha2 : isAbs outP = true
    · rw [if_neg (by simp [ha1]), if_neg (by simp [ha2])] at h ⊢
      obtain ⟨htr, _, _⟩ :=
        fsExec_success_shape failAt tmpDir tmpP key.length
          (encSteps A key nonce p inP outP tmpP) h
      have hsplit : stepEvsOf (encSteps A key nonce p inP outP tmpP) =
          stepEvsOf (encPre A key nonce p inP outP tmpP) ++
            [Ev.rename tmpP outP] := by
        unfold encSteps
        rw [stepEvsOf_append]
        rfl
      refine ⟨[Ev.mkdirAll tmpDir, Ev.createTemp tmpP, Ev.chmodFile tmpP] ++
        stepEvsOf (encPre A key nonce p inP outP tmpP), ?_, ?_, ?_⟩
      · rw [htr, hsplit, List.append_assoc]
      · intro ev hev
        rcases List.mem_append.mp hev with hev' | hev'
        · rcases List.mem_cons.mp hev' with rfl | hev2
          · simp [modifiesPath]
          · rcases List.mem_cons.mp hev2 with rfl | hev3
            · simp [modifiesPath, hne]
            · rcases List.mem_cons.mp hev3 with rfl | hev4
              · simp [modifiesPath, hne]
              · simp at hev4
        · obtain ⟨s, hs, hsev⟩ := (mem_stepEvsOf _ ev).mp hev'
          exact encPre_safe A key nonce p inP outP tmpP hne s hs ev hsev
      · rw [htr, hsplit]
        rw [writesTo_append, writesTo_append]
        have hw0 : writesTo tmpP
            [Ev.mkdirAll tmpDir, Ev.createTemp tmpP, Ev.chmodFile tmpP] = [] := by
          simp [writesTo]
        have hw2 : writesTo tmpP [Ev.rename tmpP outP] = [] := by
          simp [writesTo]
        rw [hw0, hw2, List.append_nil, List.nil_append]
        unfold encPre
        rw [stepEvsOf_append, stepEvsOf_append, writesTo_append, writesTo_append]
        have hw3 : writesTo tmpP (stepEvsOf
            [stepEv (.mkdirAll (dirname inP)), stepEv (.statFile inP),
             stepEv (.mkdirAll (dirname outP)),
             stepEv (.openRead inP),
             stepEv (.mkdirAll (dirname outP)),
             stepEv (.openWrite tmpP), stepEv (.chmodFile tmpP),
             ⟨none, none⟩,
             stepEv (.write tmpP nonce)]) = [nonce] := by
          simp [stepEvsOf, stepEv, writesTo]
        have hw4 : writesTo tmpP (stepEvsOf [stepEv (.read inP)]) = [] := by
          simp [stepEvsOf, stepEv, writesTo]
        rw [hw3, hw4, List.append_nil, stepEvsOf_encLoop, writesTo_encLoop]
        rfl
    · rw [if_neg (by simp [ha1]), if_pos (by simp [ha2])] at h
      simp at h
  · rw [if_pos (by simp [ha1])] at h
    simp at h

/-- On any error, the trace of `DecryptFile` contains no event that can
create, modify, or replace the destination file. -/
theorem decTrace_error_safe (failAt : Option Nat) (A : AEAD)
    (key file : List Nat) (inP outP tmpP tmpDir : String) (e : Err)
    (hne : tmpP ≠ outP)
    (h : (DecryptFileTrace failAt A key file inP outP tmpP tmpDir).2 = some e) :
    ∀ ev ∈ (DecryptFileTrace failAt A key file inP outP tmpP tmpDir).1,
      modifiesPath ev outP = false := by
  unfold DecryptFileTrace at h ⊢
  obtain ⟨k, hk, hlast, hmem⟩ :=
    fsExec_error_shape failAt tmpDir tmpP key.length
      (decSteps A key file inP outP tmpP) e h
  intro ev hev
  rcases hmem ev hev with rfl | rfl | rfl | rfl | hst
  · simp [modifiesPath]
  · simp [modifiesPath, hne]
  · simp [modifiesPath, hne]
  · simp [modifiesPath, hne]
  · obtain ⟨s, hs, hsev⟩ := (mem_stepEvsOf _ ev).mp hst
    by_cases hshort : file.length < A.nonceSize
    · have hs' : s ∈ decSteps A key file inP outP tmpP := List.mem_of_mem_take hs
      rw [decSteps_short A key file inP outP tmpP hshort] at hs'
      exact decPre_safe A file inP outP tmpP hne s hs' ev hsev
    · have hklt : k < (decSteps A key file inP outP tmpP).length := by
        rcases Nat.lt_or_ge k (decSteps A key file inP outP tmpP).length
          with hlt | hge
        · exact hlt
        · exfalso
          have hkeq : k = (decSteps A key file inP outP tmpP).length := by omega
          have hsne : decSteps A key file inP outP tmpP ≠ [] := by
            rw [decSteps_long A key file inP outP tmpP hshort]
            simp
          obtain ⟨last, hl1, hl2⟩ := hlast hkeq hsne
          rw [decSteps_getLast_long A key file inP outP tmpP hshort] at hl1
          have : last = stepEv (.rename tmpP outP) := (Option.some.inj hl1).symm
          rw [this] at hl2
          simp [stepEv] at hl2
      have hsd : s ∈ (decSteps A key file inP outP tmpP).dropLast :=
        mem_take_mem_dropLast _ k hklt s hs
      rw [decSteps_dropLast_long A key file inP outP tmpP hshort] at hsd
      rcases List.mem_append.mp hsd with hsp | hsb
      · exact decPre_safe A file inP outP tmpP hne s hsp ev hsev
      · obtain ⟨hev2, _⟩ := decBlock_mem A key (file.take A.nonceSize) inP tmpP
          (chunksBy (readSize A) (file.drop A.nonceSize)) s hsb
        rcases hev2 with hv | ⟨d, hv⟩
        · rw [hsev] at hv
          have : ev = Ev.read inP := Option.some.inj hv
          rw [this]
          simp [modifiesPath]
        · rw [hsev] at hv
          have : ev = Ev.write tmpP d := Option.some.inj hv
          rw [this]
          simp [modifiesPath, hne]

/-- On success, the trace of `DecryptFile` is a prefix that never
touches the destination, followed by the single atomic rename. -/
theorem decTrace_success_shape (failAt : Option Nat) (A : AEAD)
    (key file : List Nat) (inP outP tmpP tmpDir : String)
    (hne : tmpP ≠ outP)
    (h : (DecryptFileTrace failAt A key file inP outP tmpP tmpDir).2 = none) :
    ∃ pre, (DecryptFileTrace failAt A key file inP outP tmpP tmpDir).1 =
        pre ++ [Ev.rename tmpP outP] ∧
      (∀ ev ∈ pre, modifiesPath ev outP = false) := by
  unfold DecryptFileTrace at h ⊢
  obtain ⟨htr, _, hcerr⟩ :=
    fsExec_success_shape failAt tmpDir tmpP key.length
      (decSteps A key file inP outP tmpP) h
  have hlong : ¬ file.length < A.nonceSize := by
    intro hshort
    have hmem7 : (⟨some (.read inP), some .ioError⟩ : Step) ∈
        decSteps A key file inP outP tmpP := by
      rw [decSteps_short A key file inP outP tmpP hshort]
      unfold decPre
      rw [if_pos hshort]
      simp
    have := hcerr _ hmem7
    simp at this
  have hsplit : stepEvsOf (decSteps A key file inP outP tmpP) =
      stepEvsOf (decPre A file inP outP tmpP ++
        decBlockSteps A key (file.take A.nonceSize) inP tmpP
          (chunksBy (readSize A) (file.drop A.nonceSize))) ++
        [Ev.rename tmpP outP] := by
    rw [decSteps_long A key file inP outP tmpP hlong, stepEvsOf_append]
    rfl
  refine ⟨[Ev.mkdirAll tmpDir, Ev.createTemp tmpP, Ev.chmodFile tmpP] ++
    stepEvsOf (decPre A file inP outP tmpP ++
      decBlockSteps A key (file.take A.nonceSize) inP tmpP
        (chunksBy (readSize A) (file.drop A.nonceSize))), ?_, ?_⟩
  · rw [htr, hsplit, List.append_assoc]
  · intro ev hev
    rcases List.mem_append.mp hev with hev' | hev'
    · rcases List.mem_cons.mp hev' with rfl | hev2
      · simp [modifiesPath]
      · rcases List.mem_cons.mp hev2 with rfl | hev3
        · simp [modifiesPath, hne]
        · rcases List.mem_cons.mp hev3 with rfl | hev4
          · simp [modifiesPath, hne]
          · simp at hev4
    · obtain ⟨s, hs, hsev⟩ := (mem_stepEvsOf _ ev).mp hev'
      rcases List.mem_append.mp hs with hsp | hsb
      · exact decPre_safe A file inP outP tmpP hne s hsp ev hsev
      · obtain ⟨hev2, _⟩ := decBlock_mem A key (file.take A.nonceSize) inP tmpP
          (chunksBy (readSize A) (file.drop A.nonceSize)) s hsb
        rcases hev2 with hv | ⟨d, hv⟩
        · rw [hsev] at hv
          have : ev = Ev.read inP := Option.some.inj hv
          rw [this]
          simp [modifiesPath]
        · rw [hsev] at hv
          have : ev = Ev.write tmpP d := Option.some.inj hv
          rw [this]
          simp [modifiesPath, hne]

theorem decSteps_contentErr_class (A : AEAD) (key file : List Nat)
    (inP outP tmpP : String) :
    ∀ s ∈ decSteps A key file inP outP tmpP,
      s.contentErr = none ∨ s.contentErr = some .ioError ∨
        s.contentErr = some .authenticationError := by
  intro s hs
  unfold decSteps at hs
  rcases List.mem_append.mp hs with hsp | hsr
  · rcases decPre_contentErr A file inP outP tmpP s hsp with h | h
    · exact Or.inl h
    · exact Or.inr (Or.inl h)
  · by_cases hshort : file.length < A.nonceSize
    · rw [if_pos hshort] at hsr
      simp at hsr
    · rw [if_neg hshort] at hsr
      rcases List.mem_append.mp hsr with hsb | hsl
      · obtain ⟨_, hc⟩ := decBlock_mem A key (file.take A.nonceSize) inP tmpP
          (chunksBy (readSize A) (file.drop A.nonceSize)) s hsb
        rcases hc with h | h
        · exact Or.inl h
        · exact Or.inr (Or.inr h)
      · rcases List.mem_cons.mp hsl with rfl | h
        · exact Or.inl rfl
        · simp at h

/-- `DecryptFile` never reports the invalid-path error: it performs no
absolute-path validation. -/
theorem decTrace_not_invalidPath (failAt : Option Nat) (A : AEAD)
    (key file : List Nat) (inP outP tmpP tmpDir : String) :
    (DecryptFileTrace failAt A key file inP outP tmpP tmpDir).2 ≠
      some .invalidPath := by
  intro h
  unfold DecryptFileTrace at h
  rcases fsExec_error_class failAt tmpDir tmpP key.length
      (decSteps A key file inP outP tmpP) .invalidPath h with h1 | h1 | h1
  · exact absurd h1 (by simp)
  · exact absurd h1 (by simp)
  · rcases List.mem_map.mp h1 with ⟨s, hs, hsc⟩
    rcases decSteps_contentErr_class A key file inP outP tmpP s hs
      with h2 | h2 | h2 <;> rw [h2] at hsc <;> simp at hsc

theorem decBlock_fail_step (A : AEAD) (key nonce : List Nat)
    (inP tmpP : String) :
    ∀ bs : List (List Nat), (∃ b ∈ bs, A.aeOpen key nonce b = none) →
      ∃ s ∈ decBlockSteps A key nonce inP tmpP bs,
        s.contentErr = some .authenticationError := by
  intro bs
  induction bs with
  | nil => intro h; simp at h
  | cons b bs ih =>
    intro h
    cases hop : A.aeOpen key nonce b with
    | none =>
      refine ⟨⟨some (.read inP), some .authenticationError⟩, ?_, rfl⟩
      simp only [decBlockSteps, hop]
      exact List.mem_cons_self _ _
    | some pt =>
      obtain ⟨b', hb', hb'o⟩ := h
      rcases List.mem_cons.mp hb' with rfl | hb''
      · rw [hop] at hb'o
        simp at hb'o
      · obtain ⟨s, hs, hsc⟩ := ih ⟨b', hb'', hb'o⟩
        refine ⟨s, ?_, hsc⟩
        simp only [decBlockSteps, hop]
        exact List.mem_cons_of_mem _ (List.mem_cons_of_mem _ hs)

/-- If any ciphertext block of the input fails to authenticate,
`DecryptFile` cannot succeed, whatever the environment does. -/
theorem decTrace_tampered_not_ok (failAt : Option Nat) (A : AEAD)
    (key file : List Nat) (inP outP tmpP tmpDir : String)
    (hbad : ∃ b ∈ chunksBy (readSize A) (file.drop A.nonceSize),
      A.aeOpen key (file.take A.nonceSize) b = none) :
    (DecryptFileTrace failAt A key file inP outP tmpP tmpDir).2 ≠ none := by
  intro h
  unfold DecryptFileTrace at h
  obtain ⟨_, _, hcerr⟩ :=
    fsExec_success_shape failAt tmpDir tmpP key.length
      (decSteps A key file inP outP tmpP) h
  have hlong : ¬ file.length < A.nonceSize := by
    intro hshort
    have hmem7 : (⟨some (.read inP), some .ioError⟩ : Step) ∈
        decSteps A key file inP outP tmpP := by
      rw [decSteps_short A key file inP outP tmpP hshort]
      unfold decPre
      rw [if_pos hshort]
      simp
    have := hcerr _ hmem7
    simp at this
  obtain ⟨s, hs, hsc⟩ := decBlock_fail_step A key (file.take A.nonceSize)
    inP tmpP (chunksBy (readSize A) (file.drop A.nonceSize)) hbad
  have hsmem : s ∈ decSteps A key file inP outP tmpP := by
    rw [decSteps_long A key file inP outP tmpP hlong]
    exact List.mem_append_left _ (List.mem_append_right _ hs)
  have := hcerr s hsmem
  rw [hsc] at this
  simp at this

theorem openAll_auth_exists (A : AEAD) (k n : List Nat) :
    ∀ bs : List (List Nat), openAll A k n bs = .error .authenticationError →
      ∃ b ∈ bs, A.aeOpen k n b = none := by
  intro bs
  induction bs with
  | nil => intro h; simp [openAll] at h
  | cons b bs ih =>
    intro h
    cases hop : A.aeOpen k n b with
    | none => exact ⟨b, List.mem_cons_self b bs, hop⟩
    | some pt =>
      rw [openAll, hop] at h
      cases hrec : openAll A k n bs with
      | ok v => rw [hrec] at h; simp at h
      | error e =>
        rw [hrec] at h
        simp at h
        obtain ⟨b', hb', hb'o⟩ := ih (by rw [hrec, h])
        exact ⟨b', List.mem_cons_of_mem b hb', hb'o⟩

theorem DecryptFile_auth_exists (A : AEAD) (key f : List Nat)
    (h : DecryptFile A key f = .error .authenticationError) :
    ∃ b ∈ chunksBy (readSize A) (f.drop A.nonceSize),
      A.aeOpen key (f.take A.nonceSize) b = none := by
  unfold DecryptFile at h
  by_cases hkey : key.length ≠ 32
  · rw [if_pos hkey] at h
    simp at h
  · rw [if_neg hkey] at h
    by_cases hshort : f.length < A.nonceSize
    · rw [if_pos hshort] at h
      simp at h
    · rw [if_neg hshort] at h
      exact openAll_auth_exists A key (f.take A.nonceSize) _ h

/-- Claim C1 (code_bug evidence): evaluated on a two-block plaintext
(65537 bytes) the `gcm.Seal` call list of `EncryptFile` makes two calls,
both with the identical (key, nonce) pair — the file-level nonce is
reused verbatim for every block, with no per-block counter. -/
theorem claim_C1_nonce_reuse :
    (sealCalls (List.replicate 32 0) (List.replicate 12 0)
        (List.replicate 65537 0)).map (fun t => (t.1, t.2.1)) =
      [(List.replicate 32 0, List.replicate 12 0),
       (List.replicate 32 0, List.replicate 12 0)] := by
  unfold sealCalls
  rw [List.map_map]
  have hcomp : ((fun t : List Nat × List Nat × List Nat => (t.1, t.2.1)) ∘
      (fun c : List Nat => (List.replicate 32 (0 : Nat),
        List.replicate 12 (0 : Nat), c))) =
      fun _ : List Nat =>
        (List.replicate 32 (0 : Nat), List.replicate 12 (0 : Nat)) := rfl
  rw [hcomp]
  have hlen : (chunks (List.replicate 65537 (0 : Nat))).length = 2 := by
    show (chunksBy chunkSize (List.replicate 65537 (0 : Nat))).length = 2
    rw [length_chunksBy chunkSize chunkSize_pos]
    simp only [List.length_replicate]
    decide
  rw [List.map_const', hlen]
  rfl

set_option maxRecDepth 16000

/-- Claim C2 (code_bug evidence): for a 10-byte body the request
`bytes=0-0` is answered 206 with `Content-Range: bytes 0-9/10` and all
ten bytes — not one byte with `bytes 0-0/10` — because `parseRange`
treats a parsed `end` of `0` as absent; the other two scenarios of the
claim (`bytes=100-` on a 150-byte body, `bytes=S-S` rejected 416)
behave as the claim states. -/
theorem claim_C2_range_zero_zero :
    streamRange (List.range 10) "bytes=0-0" =
      ⟨206, some (0, 9, 10), List.range 10⟩ ∧
    streamRange (List.range 150) "bytes=100-" =
      ⟨206, some (100, 149, 150), (List.range 150).drop 100⟩ ∧
    streamRange (List.range 10) "bytes=10-10" = ⟨416, none, []⟩ := by
  refine ⟨?_, ?_, ?_⟩ <;> decide

/-- Claim C4 (code_bug evidence): the malformed header `bytes=abc`
(start not numeric) is not rejected with 416: the ignored `Sscanf`
error leaves `start = end = 0`, the zero `end` is defaulted to
`size-1`, and the request is served as a 206 partial-content response
for the whole body. -/
theorem claim_C4_malformed_served :
    parseRange "bytes=abc" 10 = some (0, 9) ∧
    streamRange (List.range 10) "bytes=abc" =
      ⟨206, some (0, 9, 10), List.range 10⟩ := by
  refine ⟨?_, ?_⟩ <;> decide

/-- Claim C3: for every plaintext `p` (any length, zero included), every
32-byte key and every nonce of the cipher's nonce size, encrypting
succeeds and decrypting the produced file with the same key yields
exactly `p`. -/
theorem claim_C3_roundtrip (A : AEAD) (key nonce p : List Nat)
    (hk : key.length = 32) (hn : nonce.length = A.nonceSize) :
    EncryptFile A key nonce p = .ok (encBytes A key nonce p) ∧
    DecryptFile A key (encBytes A key nonce p) = .ok p := by
  constructor
  · unfold EncryptFile
    rw [if_neg (by omega)]
  · exact decrypt_encBytes A key nonce p hk hn

/-- Witness for claim C3 at a concrete key, nonce and plaintext. -/
theorem claim_C3_roundtrip_w :
    EncryptFile gcmModel (List.replicate 32 1) (List.replicate 12 2) [5, 6, 7] =
      .ok (encBytes gcmModel (List.replicate 32 1) (List.replicate 12 2)
        [5, 6, 7]) ∧
    DecryptFile gcmModel (List.replicate 32 1)
        (encBytes gcmModel (List.replicate 32 1) (List.replicate 12 2)
          [5, 6, 7]) =
      .ok [5, 6, 7] :=
  claim_C3_roundtrip gcmModel (List.replicate 32 1) (List.replicate 12 2)
    [5, 6, 7] (by decide) (by decide)

/-- Claim C5: whatever single step the environment fails (oracle
`failAt`), an erroring `EncryptFile` or `DecryptFile` never emits an
event that creates, modifies, or replaces the destination path, and a
successful run's trace is a destination-untouching prefix followed by
the one atomic rename; for encryption the data staged to the temp file
before that rename is exactly the nonce followed by the sealed chunks
in order. -/
theorem claim_C5_atomic_commit (failAt : Option Nat) (A : AEAD)
    (key nonce p file : List Nat) (inP outP tmpP tmpDir : String)
    (hne : tmpP ≠ outP) :
    ((∀ e, (EncryptFileTrace failAt A key nonce p inP outP tmpP tmpDir).2 =
          some e →
        ∀ ev ∈ (EncryptFileTrace failAt A key nonce p inP outP tmpP tmpDir).1,
          modifiesPath ev outP = false) ∧
      ((EncryptFileTrace failAt A key nonce p inP outP tmpP tmpDir).2 = none →
        ∃ pre, (EncryptFileTrace failAt A key nonce p inP outP tmpP tmpDir).1 =
            pre ++ [Ev.rename tmpP outP] ∧
          (∀ ev ∈ pre, modifiesPath ev outP = false) ∧
          writesTo tmpP
              (EncryptFileTrace failAt A key nonce p inP outP tmpP tmpDir).1 =
            nonce :: (chunks p).map (A.aeSeal key nonce))) ∧
    ((∀ e, (DecryptFileTrace failAt A key file inP outP tmpP tmpDir).2 =
          some e →
        ∀ ev ∈ (DecryptFileTrace failAt A key file inP outP tmpP tmpDir).1,
          modifiesPath ev outP = false) ∧
      ((DecryptFileTrace failAt A key file inP outP tmpP tmpDir).2 = none →
        ∃ pre, (DecryptFileTrace failAt A key file inP outP tmpP tmpDir).1 =
            pre ++ [Ev.rename tmpP outP] ∧
          ∀ ev ∈ pre, modifiesPath ev outP = false)) :=
  ⟨⟨fun e he => encTrace_error_safe failAt A key nonce p inP outP tmpP tmpDir
      e hne he,
    fun h => encTrace_success_shape failAt A key nonce p inP outP tmpP tmpDir
      hne h⟩,
   ⟨fun e he => decTrace_error_safe failAt A key file inP outP tmpP tmpDir
      e hne he,
    fun h => decTrace_success_shape failAt A key file inP outP tmpP tmpDir
      hne h⟩⟩

/-- Witness for claim C5 at concrete inputs (no environment failure,
a one-byte plaintext, an empty ciphertext file, distinct paths). -/
theorem claim_C5_atomic_commit_w :
    ((∀ e, (EncryptFileTrace none gcmModel (List.replicate 32 0)
          (List.replicate 12 0) [1] "/i" "/o" "/t" "/td").2 = some e →
        ∀ ev ∈ (EncryptFileTrace none gcmModel (List.replicate 32 0)
          (List.replicate 12 0) [1] "/i" "/o" "/t" "/td").1,
          modifiesPath ev "/o" = false) ∧
      ((EncryptFileTrace none gcmModel (List.replicate 32 0)
          (List.replicate 12 0) [1] "/i" "/o" "/t" "/td").2 = none →
        ∃ pre, (EncryptFileTrace none gcmModel (List.replicate 32 0)
            (List.replicate 12 0) [1] "/i" "/o" "/t" "/td").1 =
            pre ++ [Ev.rename "/t" "/o"] ∧
          (∀ ev ∈ pre, modifiesPath ev "/o" = false) ∧
          writesTo "/t"
              (EncryptFileTrace none gcmModel (List.replicate 32 0)
                (List.replicate 12 0) [1] "/i" "/o" "/t" "/td").1 =
            List.replicate 12 0 ::
              (chunks [1]).map (gcmModel.aeSeal (List.replicate 32 0)
                (List.replicate 12 0)))) ∧
    ((∀ e, (DecryptFileTrace none gcmModel (List.replicate 32 0) []
          "/i" "/o" "/t" "/td").2 = some e →
        ∀ ev ∈ (DecryptFileTrace none gcmModel (List.replicate 32 0) []
          "/i" "/o" "/t" "/td").1,
          modifiesPath ev "/o" = false) ∧
      ((DecryptFileTrace none gcmModel (List.replicate 32 0) []
          "/i" "/o" "/t" "/td").2 = none →
        ∃ pre, (DecryptFileTrace none gcmModel (List.replicate 32 0) []
            "/i" "/o" "/t" "/td").1 =
            pre ++ [Ev.rename "/t" "/o"] ∧
          ∀ ev ∈ pre, modifiesPath ev "/o" = false)) :=
  claim_C5_atomic_commit none gcmModel (List.replicate 32 0)
    (List.replicate 12 0) [1] [] "/i" "/o" "/t" "/td" (by decide)

/-- Claim C6 counterexample: with a 31-byte key and absolute paths,
`EncryptFile` does fail with the invalid-key error, but its trace shows
a temporary file was created (and chmodded, and removed again by the
deferred cleanup) before the key-length check ran — the filesystem is
touched before the rejection, contrary to the claim. -/
theorem claim_C6_cex :
    EncryptFileTrace none gcmModel (List.replicate 31 0) (List.replicate 12 0)
        [] "/i" "/o" "/t" "/td" =
      ([Ev.mkdirAll "/td", Ev.createTemp "/t", Ev.chmodFile "/t",
        Ev.remove "/t"], some .invalidKey) ∧
    Ev.createTemp "/t" ∈
      (EncryptFileTrace none gcmModel (List.replicate 31 0)
        (List.replicate 12 0) [] "/i" "/o" "/t" "/td").1 := by
  refine ⟨?_, ?_⟩ <;> decide

/-- Claim C6 as amended: with a key of length ≠ 32 bytes (and, for
encryption, absolute paths), both operations fail with the invalid-key
error and never touch the input or destination paths — but only after
staging a temporary file, which the deferred cleanup then removes; the
whole trace is exactly temp-dir creation, temp-file creation, its
chmod, and its removal. -/
theorem claim_C6_amended (A : AEAD) (key nonce p file : List Nat)
    (inP outP tmpP tmpDir : String) (hk : key.length ≠ 32)
    (ha1 : isAbs inP = true) (ha2 : isAbs outP = true) :
    EncryptFileTrace none A key nonce p inP outP tmpP tmpDir =
      ([Ev.mkdirAll tmpDir, Ev.createTemp tmpP, Ev.chmodFile tmpP,
        Ev.remove tmpP], some .invalidKey) ∧
    DecryptFileTrace none A key file inP outP tmpP tmpDir =
      ([Ev.mkdirAll tmpDir, Ev.createTemp tmpP, Ev.chmodFile tmpP,
        Ev.remove tmpP], some .invalidKey) := by
  constructor
  · unfold EncryptFileTrace
    rw [if_neg (by simp [ha1]), if_neg (by simp [ha2])]
    unfold fsExec
    rw [if_neg (by simp), if_neg (by simp), if_neg (by simp), if_pos hk]
  · unfold DecryptFileTrace
    unfold fsExec
    rw [if_neg (by simp), if_neg (by simp), if_neg (by simp), if_pos hk]

/-- Witness for the amended claim C6 at a concrete 31-byte key. -/
theorem claim_C6_amended_w :
    EncryptFileTrace none gcmModel (List.replicate 31 0) (List.replicate 12 0)
        [3] "/a" "/b" "/t" "/td" =
      ([Ev.mkdirAll "/td", Ev.createTemp "/t", Ev.chmodFile "/t",
        Ev.remove "/t"], some .invalidKey) ∧
    DecryptFileTrace none gcmModel (List.replicate 31 0) [3]
        "/a" "/b" "/t" "/td" =
      ([Ev.mkdirAll "/td", Ev.createTemp "/t", Ev.chmodFile "/t",
        Ev.remove "/t"], some .invalidKey) :=
  claim_C6_amended gcmModel (List.replicate 31 0) (List.replicate 12 0)
    [3] [3] "/a" "/b" "/t" "/td" (by decide) (by decide) (by decide)

/-- Claim C7: flipping any single byte of a well-formed encrypted file
strictly after its nonce prefix makes decryption with the correct key
fail with the authentication error; a file shorter than the nonce fails
decryption too; and on the tampered file the decrypt operation can
never succeed, whatever the environment does, and its trace never
contains an event that could put plaintext at the destination path. -/
theorem claim_C7_tamper (A : AEAD) (key nonce p : List Nat) (i b : Nat)
    (hk : key.length = 32) (hn : nonce.length = A.nonceSize)
    (hp : ∀ x ∈ p, x < 256) (hb : b < 256)
    (hi1 : A.nonceSize ≤ i) (hi2 : i < (encBytes A key nonce p).length)
    (hne : b ≠ (encBytes A key nonce p).getD i 0) :
    DecryptFile A key ((encBytes A key nonce p).set i b) =
      .error .authenticationError ∧
    (∀ f : List Nat, f.length < A.nonceSize →
      DecryptFile A key f = .error .ioError) ∧
    (∀ (failAt : Option Nat) (inP outP tmpP tmpDir : String), tmpP ≠ outP →
      (DecryptFileTrace failAt A key ((encBytes A key nonce p).set i b)
          inP outP tmpP tmpDir).2 ≠ none ∧
      ∀ e, (DecryptFileTrace failAt A key ((encBytes A key nonce p).set i b)
          inP outP tmpP tmpDir).2 = some e →
        ∀ ev ∈ (DecryptFileTrace failAt A key ((encBytes A key nonce p).set i b)
          inP outP tmpP tmpDir).1, modifiesPath ev outP = false) := by
  have hmain := decrypt_tampered A key nonce p i b hk hn hp hb hi1 hi2 hne
  refine ⟨hmain, fun f hf => decrypt_short A key f hk hf, ?_⟩
  intro failAt inP outP tmpP tmpDir hne2
  have hbad := DecryptFile_auth_exists A key _ hmain
  exact ⟨decTrace_tampered_not_ok failAt A key _ inP outP tmpP tmpDir hbad,
    fun e he => decTrace_error_safe failAt A key _ inP outP tmpP tmpDir
      e hne2 he⟩

/-- Witness for claim C7: a concrete 3-byte plaintext, flipping the
first ciphertext byte (position 12, right after the 12-byte nonce). -/
theorem claim_C7_tamper_w :
    DecryptFile gcmModel (List.replicate 32 0)
        ((encBytes gcmModel (List.replicate 32 0) (List.replicate 12 0)
          [1, 2, 3]).set 12 0) =
      .error .authenticationError ∧
    DecryptFile gcmModel (List.replicate 32 0) [9, 9] = .error .ioError :=
  have h := claim_C7_tamper gcmModel (List.replicate 32 0)
    (List.replicate 12 0) [1, 2, 3] 12 0 (by decide) (by decide) (by decide)
    (by decide) (by decide) (by decide) (by decide)
  ⟨h.1, h.2.1 [9, 9] (by decide)⟩

/-- Claim C8 counterexample: `DecryptFile` called with relative input
and output paths does not reject them — there is no absolute-path check
in it at all: the run proceeds to touch the filesystem (it creates
directories and a temp file) and fails only later, here with the
I/O error of an unreadable nonce, never with the invalid-path error. -/
theorem claim_C8_cex :
    (DecryptFileTrace none gcmModel (List.replicate 32 0) []
        "rel.enc" "relout" "/t" "/td").2 = some .ioError ∧
    Ev.mkdirAll (dirname "rel.enc") ∈
      (DecryptFileTrace none gcmModel (List.replicate 32 0) []
        "rel.enc" "relout" "/t" "/td").1 := by
  refine ⟨?_, ?_⟩ <;> decide

/-- Claim C8 as amended: `EncryptFile` rejects a relative input or
output path with the invalid-path error before any filesystem effect
(its trace is empty), but `DecryptFile` performs no such validation and
never reports the invalid-path error on any input. -/
theorem claim_C8_amended :
    (∀ (failAt : Option Nat) (A : AEAD) (key nonce p : List Nat)
        (inP outP tmpP tmpDir : String),
      (¬ isAbs inP = true ∨ ¬ isAbs outP = true) →
      EncryptFileTrace failAt A key nonce p inP outP tmpP tmpDir =
        ([], some .invalidPath)) ∧
    (∀ (failAt : Option Nat) (A : AEAD) (key file : List Nat)
        (inP outP tmpP tmpDir : String),
      (DecryptFileTrace failAt A key file inP outP tmpP tmpDir).2 ≠
        some .invalidPath) := by
  constructor
  · intro failAt A key nonce p inP outP tmpP tmpDir h
    unfold EncryptFileTrace
    rcases h with h | h
    · rw [if_pos h]
    · by_cases h1 : isAbs inP = true
      · rw [if_neg (by simp [h1]), if_pos h]
      · rw [if_pos (by simp [h1])]
  · intro failAt A key file inP outP tmpP tmpDir
    exact decTrace_not_invalidPath failAt A key file inP outP tmpP tmpDir

/-- Claim C9 counterexample: a 150,000-byte plaintext is split by the
64 KiB chunking into 2 full 65,536-byte chunks and one partial chunk of
18,928 bytes — not into 3 full chunks plus a 22,528-byte partial as the
claim states (3·65536 + 22528 = 219,136 ≠ 150,000). -/
theorem claim_C9_cex :
    (chunks (List.replicate 150000 0)).map List.length =
      [65536, 65536, 18928] ∧
    (chunks (List.replicate 150000 0)).map List.length ≠
      [65536, 65536, 65536, 22528] := by
  have h := map_length_chunksBy chunkSize chunkSize_pos
    (List.replicate 150000 (0 : Nat))
  have h2 : chunkLens chunkSize (List.replicate 150000 (0 : Nat)).length =
      [65536, 65536, 18928] := by
    simp only [List.length_replicate]
    decide
  constructor
  · show (chunksBy chunkSize (List.replicate 150000 (0 : Nat))).map
      List.length = _
    rw [h, h2]
  · show (chunksBy chunkSize (List.replicate 150000 (0 : Nat))).map
      List.length ≠ _
    rw [h, h2]
    decide

/-- Claim C9 as amended: encrypting a 150,000-byte plaintext with the
64 KiB block size processes it as 2 full 65,536-byte chunks plus one
partial chunk of 18,928 bytes, and decrypting the result yields a
plaintext byte-for-byte equal to the original, of size exactly
150,000. -/
theorem claim_C9_amended (A : AEAD) (key nonce p : List Nat)
    (hk : key.length = 32) (hn : nonce.length = A.nonceSize)
    (hp : p.length = 150000) :
    (chunks p).map List.length = [65536, 65536, 18928] ∧
    DecryptFile A key (encBytes A key nonce p) = .ok p ∧
    p.length = 150000 := by
  refine ⟨?_, decrypt_encBytes A key nonce p hk hn, hp⟩
  show (chunksBy chunkSize p).map List.length = _
  rw [map_length_chunksBy chunkSize chunkSize_pos p, hp]
  decide

/-- Witness for the amended claim C9 at a concrete 150,000-byte
plaintext. -/
theorem claim_C9_amended_w :
    (chunks (List.replicate 150000 3)).map List.length =
      [65536, 65536, 18928] ∧
    DecryptFile gcmModel (List.replicate 32 0)
        (encBytes gcmModel (List.replicate 32 0) (List.replicate 12 0)
          (List.replicate 150000 3)) =
      .ok (List.replicate 150000 3) ∧
    (List.replicate 150000 (3 : Nat)).length = 150000 :=
  claim_C9_amended gcmModel (List.replicate 32 0) (List.replicate 12 0)
    (List.replicate 150000 3) (by decide) (by decide)
    (List.length_replicate 150000 3)

/-- Claim C10: a successful encryption of an `n`-byte plaintext
produces a file of exactly `12 + n + 16·⌈n/65536⌉` bytes — the 12-byte
nonce plus one 16-byte-expanded ciphertext block per 64 KiB chunk, with
no zero-length trailing chunk. -/
theorem claim_C10_length (A : AEAD) (key nonce p : List Nat)
    (hk : key.length = 32) (hn : nonce.length = 12)
    (hov : A.overhead = 16) :
    EncryptFile A key nonce p = .ok (encBytes A key nonce p) ∧
    (encBytes A key nonce p).length =
      12 + p.length + 16 * ((p.length + 65535) / 65536) ∧
    (∀ c ∈ chunks p, c ≠ []) := by
  refine ⟨?_, ?_, ?_⟩
  · unfold EncryptFile
    rw [if_neg (by omega)]
  · rw [length_encBytes A key nonce p, hn, hov]
    have harg : numChunks chunkSize p.length = (p.length + 65535) / 65536 := by
      unfold numChunks chunkSize
      omega
    rw [harg]
  · exact mem_chunksBy_ne_nil chunkSize chunkSize_pos p

/-- Witness for claim C10 at a concrete one-byte plaintext: the file
is 12 + 1 + 16 = 29 bytes. -/
theorem claim_C10_length_w :
    EncryptFile gcmModel (List.replicate 32 0) (List.replicate 12 0) [7] =
      .ok (encBytes gcmModel (List.replicate 32 0) (List.replicate 12 0)
        [7]) ∧
    (encBytes gcmModel (List.replicate 32 0) (List.replicate 12 0)
        [7]).length =
      12 + ([7] : List Nat).length +
        16 * ((([7] : List Nat).length + 65535) / 65536) ∧
    (∀ c ∈ chunks [7], c ≠ []) :=
  claim_C10_length gcmModel (List.replicate 32 0) (List.replicate 12 0) [7]
    (by decide) (by decide) (by decide)

